import Mathlib

/-!
Verification development for the audiotorium frontend's queue-sync core.

Each definition below is a shallow embedding of a function of the
repository's TypeScript/Svelte sources; the file name and symbol it is
taken from are given in its doc comment.  Theorems settle the frozen
claims about the specification.
-/

namespace Audiotorium

/-! ## Reorder coordinator (drag-reorder → move command)

Embeds the drag state and handlers shared (verbatim in logic) by
`src/app/src/lib/audio/Queue.svelte` (`transformDraggedElement`,
`handleDndFinalize`) and the queue-list component concatenated into
`src/app/src/lib/queue/ActiveAudio.svelte` (same symbols; it sends the
move through `sendCommandWithTimeout` instead of the raw socket, which
does not change which command is emitted).

State variables from source: `setOldPosLocked : boolean`,
`oldPos : number | undefined`, `newPos : number | undefined`.
The assignment `items = e.detail.items` in the handlers is
presentation-only (it stores the library's rendered order) and carries
no information used by the emitted command, so it is omitted from the
state.  The only `sendWsMsg`/`sendCommandWithTimeout` call of a drag
gesture sits in `handleDndFinalize`, so the command output of a gesture
is exactly the output of the finalize step.
-/

structure DndState where
  setOldPosLocked : Bool
  oldPos : Option Nat
  newPos : Option Nat
deriving DecidableEq

/-- Initial component state: `setOldPosLocked = false`, both positions
`undefined`. -/
def dndInit : DndState := ⟨false, none, none⟩

/-- Source `transformDraggedElement(_element, _data, index)`: on the first call of a
gesture (lock not held) take the lock and capture `oldPos = index`; on every
call set `newPos = index`.  The library passes the dragged item's current
index, possibly `undefined`. -/
def transformDraggedElement (s : DndState) (index : Option Nat) : DndState :=
  let s1 := if s.setOldPosLocked then s
    else { s with setOldPosLocked := true, oldPos := index }
  { s1 with newPos := index }

/-- A `MOVE_QUEUE_ITEM` payload `{ oldPos, newPos }`. -/
structure MoveCmd where
  oldPos : Nat
  newPos : Nat
deriving DecidableEq

/-- Source `handleDndFinalize(e)`: release the lock and, if `oldPos` and `newPos`
are both defined, emit one `MOVE_QUEUE_ITEM { oldPos, newPos }` command.
The source checks only definedness (`oldPos !== undefined && newPos !==
undefined`); it does not compare `oldPos` with `newPos`, and it does not
reset either variable to `undefined`. -/
def handleDndFinalize (s : DndState) : DndState × Option MoveCmd :=
  let s1 := { s with setOldPosLocked := false }
  match s.oldPos, s.newPos with
  | some o, some n => (s1, some ⟨o, n⟩)
  | some _, none => (s1, none)
  | none, _ => (s1, none)

/-- One complete drag gesture: the library fires `transformDraggedElement`
once per intermediate reorder frame (each call carrying the dragged item's
current index) and then `finalize` once. -/
def runGesture (s : DndState) (considers : List (Option Nat)) :
    DndState × Option MoveCmd :=
  handleDndFinalize (considers.foldl transformDraggedElement s)

/-- The last element of a list, or the default when the list is empty. -/
def lastD {α : Type} : List α → α → α
  | [], d => d
  | x :: xs, _ => lastD xs x

lemma transformDraggedElement_locked (s : DndState) (i : Option Nat)
    (h : s.setOldPosLocked = true) :
    transformDraggedElement s i = { s with newPos := i } := by
  simp [transformDraggedElement, h]

lemma foldl_transform_locked (s : DndState) (h : s.setOldPosLocked = true) :
    ∀ is_ : List (Option Nat),
      is_.foldl transformDraggedElement s =
        ⟨true, s.oldPos, lastD is_ s.newPos⟩ := by
  intro is_
  induction is_ generalizing s with
  | nil => cases s; simp_all [lastD]
  | cons i tl ih =>
      rw [List.foldl_cons, transformDraggedElement_locked s i h]
      rw [ih { s with newPos := i } h]
      simp [lastD]

lemma foldl_transform_unlocked (s : DndState) (h : s.setOldPosLocked = false)
    (i : Option Nat) (tl : List (Option Nat)) :
    (i :: tl).foldl transformDraggedElement s = ⟨true, i, lastD tl i⟩ := by
  rw [List.foldl_cons]
  have h1 : transformDraggedElement s i = ⟨true, i, i⟩ := by
    simp [transformDraggedElement, h]
  rw [h1, foldl_transform_locked ⟨true, i, i⟩ rfl tl]

lemma lastD_map_some (i : Nat) (js : List Nat) :
    lastD (js.map Option.some) (some i) = some (lastD js i) := by
  induction js generalizing i with
  | nil => rfl
  | cons j tl ih => simp [lastD, ih]

/-- C1: a gesture whose intermediate events carry the indices
`i :: js` (all defined), started with the lock free, emits at finalize
exactly one move command, with `oldPos` = the index at the first
intermediate event (`i`) and `newPos` = the index at the last
intermediate frame before finalize (`js.getLastD i`). -/
theorem gesture_emits_one_move (s : DndState) (i : Nat) (js : List Nat)
    (h : s.setOldPosLocked = false) :
    (runGesture s ((i :: js).map Option.some)).2 =
      some ⟨i, lastD js i⟩ := by
  unfold runGesture
  rw [List.map_cons, foldl_transform_unlocked s h (some i) (js.map Option.some)]
  rw [lastD_map_some]
  rfl

/-- Witness for `gesture_emits_one_move`: the spec's own scenario — drag the
item at position 2 with one intermediate frame at position 1 and drop at
position 0 — emits exactly `MOVE_QUEUE_ITEM { oldPos: 2, newPos: 0 }`. -/
theorem gesture_emits_one_move_witness :
    dndInit.setOldPosLocked = false ∧
      (runGesture dndInit ([2, 1, 0].map Option.some)).2 = some ⟨2, 0⟩ :=
  ⟨rfl, gesture_emits_one_move dndInit 2 [1, 0] rfl⟩

/-- C2 counterexample: drag the item at index 2 and drop it back on its
starting slot (one intermediate frame reporting index 2).  The captured
`oldPos` and `newPos` are both `2`, yet finalize emits
`MOVE_QUEUE_ITEM { oldPos: 2, newPos: 2 }` — the source only checks that
both are defined, it never compares them, so the claimed suppression of
the command when `oldPos == newPos` does not happen. -/
theorem finalize_equal_positions_still_emits :
    ([some 2].foldl transformDraggedElement dndInit).oldPos = some 2 ∧
      ([some 2].foldl transformDraggedElement dndInit).newPos = some 2 ∧
      (runGesture dndInit [some 2]).2 = some ⟨2, 2⟩ :=
  ⟨rfl, rfl, rfl⟩

/-- C2 amended: if at finalize both captured positions are defined and
equal (`oldPos = newPos = p`), a move command carrying the two equal
positions is still emitted; a command is suppressed only when `oldPos`
or `newPos` is `undefined`. -/
theorem finalize_move_emission (s : DndState) (p : Nat)
    (h1 : s.oldPos = some p) (h2 : s.newPos = some p) :
    (handleDndFinalize s).2 = some ⟨p, p⟩ ∧
      (∀ t : DndState, t.oldPos = none ∨ t.newPos = none →
        (handleDndFinalize t).2 = none) := by
  constructor
  · simp [handleDndFinalize, h1, h2]
  · intro t ht
    rcases ht with h | h <;> cases ho : t.oldPos <;> cases hn : t.newPos <;>
      simp_all [handleDndFinalize]

/-- Witness for `finalize_move_emission` at the state left by a first
consider event on index 3. -/
theorem finalize_move_emission_witness :
    (⟨true, some 3, some 3⟩ : DndState).oldPos = some 3 ∧
      (⟨true, some 3, some 3⟩ : DndState).newPos = some 3 ∧
      ((handleDndFinalize ⟨true, some 3, some 3⟩).2 = some ⟨3, 3⟩ ∧
        (∀ t : DndState, t.oldPos = none ∨ t.newPos = none →
          (handleDndFinalize t).2 = none)) :=
  ⟨rfl, rfl, finalize_move_emission ⟨true, some 3, some 3⟩ 3 rfl rfl⟩

/-- C8 counterexample: after a completed drag (considers at 2 then 0,
finalize emitting `{oldPos: 2, newPos: 0}`), a later finalize preceded by
no intermediate event in its own gesture re-emits
`MOVE_QUEUE_ITEM { oldPos: 2, newPos: 0 }` from the stale captured
positions — the source resets only `setOldPosLocked`, never `oldPos` or
`newPos`, so the claimed full reset does not happen. -/
theorem stale_finalize_reemits_move :
    (runGesture dndInit [some 2, some 0]).2 = some ⟨2, 0⟩ ∧
      (runGesture (runGesture dndInit [some 2, some 0]).1 []).2 =
        some ⟨2, 0⟩ :=
  ⟨rfl, rfl⟩

/-- C8 amended: finalize does release the `oldPos`-capture lock and leaves
`oldPos`/`newPos` untouched; consequently a later finalize whose own
gesture had no intermediate event emits a move command with the retained
positions whenever both are defined (and emits nothing only when one of
them is `undefined`). -/
theorem finalize_releases_lock_but_keeps_positions (s : DndState)
    (o n : Nat) (h1 : s.oldPos = some o) (h2 : s.newPos = some n) :
    (handleDndFinalize s).1.setOldPosLocked = false ∧
      (handleDndFinalize s).1.oldPos = s.oldPos ∧
      (handleDndFinalize s).1.newPos = s.newPos ∧
      (runGesture s []).2 = some ⟨o, n⟩ := by
  refine ⟨?_, ?_, ?_, ?_⟩ <;>
    simp [handleDndFinalize, runGesture, h1, h2]

/-- Witness for `finalize_releases_lock_but_keeps_positions` at the state
left by the completed drag of `stale_finalize_reemits_move`. -/
theorem finalize_releases_lock_but_keeps_positions_witness :
    (⟨false, some 2, some 0⟩ : DndState).oldPos = some 2 ∧
      (⟨false, some 2, some 0⟩ : DndState).newPos = some 0 ∧
      ((handleDndFinalize ⟨false, some 2, some 0⟩).1.setOldPosLocked = false ∧
        (handleDndFinalize ⟨false, some 2, some 0⟩).1.oldPos =
          (⟨false, some 2, some 0⟩ : DndState).oldPos ∧
        (handleDndFinalize ⟨false, some 2, some 0⟩).1.newPos =
          (⟨false, some 2, some 0⟩ : DndState).newPos ∧
        (runGesture ⟨false, some 2, some 0⟩ []).2 = some ⟨2, 0⟩) :=
  ⟨rfl, rfl, finalize_releases_lock_but_keeps_positions _ 2 0 rfl rfl⟩

/-! ## Command timeout guard

Embeds `sendCommandWithTimeout` from `src/app/src/lib/utils.ts` (the same
function appears verbatim, up to the API prefix constant, in the unnamed
source part containing the utils module):

```
const timeoutIdentifier = \x7b\x7d;
try \x7b
  await new Promise(async (res, rej) => \x7b
    setTimeout(() => rej(timeoutIdentifier), timeoutMs);
    res(await fetch(...));
  \x7d);
\x7d catch (e) \x7b
  if (e === timeoutIdentifier) \x7b onTimeout(); \x7d
\x7d
```

Event-loop semantics embedded here:
* the executor registers a timer that rejects the promise with
  `timeoutIdentifier` at `timeoutMs`;
* `res` is called only when the `fetch` FULFILLS (at its settle time);
* if the `fetch` REJECTS, the `await` inside the `async` executor throws
  inside the executor's own implicit promise — that rejection is swallowed
  as an unhandled rejection and never settles the outer promise, so the
  timer's rejection is what eventually settles it;
* a promise settles once: whichever of `res`/`rej` runs first wins;
* the `catch` invokes `onTimeout` exactly when the caught value is
  `timeoutIdentifier` (the only `rej` argument), and rethrows nothing, so
  no exception ever reaches the caller.  The timer is never cleared, but
  its late rejection of an already-settled promise is a no-op.
-/

/-- The outcome of the wrapped `fetch` call: fulfilled or rejected at a
given millisecond, or never settling. -/
inductive FetchOutcome where
  | fulfilled (t : Nat)
  | rejected (t : Nat)
  | never
deriving DecidableEq

/-- How the guard's inner `Promise` settles. -/
inductive PromiseSettle where
  | resolvedAt (t : Nat)
  | timerRejectedAt (t : Nat)
deriving DecidableEq

/-- First settlement of the race between `res(await fetch(...))` and
`setTimeout(() => rej(timeoutIdentifier), timeoutMs)`.  Only a fulfilled
fetch can resolve the promise; a rejected fetch leaves it pending until
the timer fires (see the section comment). -/
def outerSettle (outcome : FetchOutcome) (timeoutMs : Nat) : PromiseSettle :=
  match outcome with
  | .fulfilled t =>
      if t < timeoutMs then .resolvedAt t else .timerRejectedAt timeoutMs
  | .rejected _ => .timerRejectedAt timeoutMs
  | .never => .timerRejectedAt timeoutMs

/-- Whether the network call fulfills strictly before the deadline — the
only way the network result can win the race in this code. -/
def networkFulfillsWithin (outcome : FetchOutcome) (timeoutMs : Nat) : Bool :=
  match outcome with
  | .fulfilled t => t < timeoutMs
  | _ => false

/-- Observable result of one `sendCommandWithTimeout` call. -/
structure GuardResult where
  onTimeoutInvoked : Bool
  callerException : Bool
  unhandledFetchRejection : Bool
deriving DecidableEq

/-- Source `sendCommandWithTimeout(cmd, nodeName, timeoutMs, onTimeout)`: awaits
the raced promise inside `try`; the `catch` calls `onTimeout()` iff the
caught value is the timer's `timeoutIdentifier`, and lets nothing
propagate.  A rejected fetch additionally leaves an unhandled rejection
inside the async executor. -/
def sendCommandWithTimeout (outcome : FetchOutcome) (timeoutMs : Nat) :
    GuardResult :=
  let onTimeoutInvoked :=
    match outerSettle outcome timeoutMs with
    | .resolvedAt _ => false
    | .timerRejectedAt _ => true
  { onTimeoutInvoked := onTimeoutInvoked
    callerException := false
    unhandledFetchRejection :=
      match outcome with
      | .rejected _ => true
      | _ => false }

/-- C4: `sendCommandWithTimeout` invokes `onTimeout` iff the deadline timer
fires before the network call settles the race (in this code a network
fulfillment is the only settlement that can beat the timer: a rejected
`fetch` never settles the outer promise, so it is surfaced through the
very same timer path — which is also what the claim's last conjunct
asserts); if the call fulfills within the deadline nothing further
happens (no `onTimeout`, no exception, no pending rejection); and no
network-level rejection ever propagates to the caller. -/
theorem sendCommandWithTimeout_spec (outcome : FetchOutcome)
    (timeoutMs : Nat) :
    ((sendCommandWithTimeout outcome timeoutMs).onTimeoutInvoked = true ↔
      networkFulfillsWithin outcome timeoutMs = false) ∧
    (networkFulfillsWithin outcome timeoutMs = true →
      sendCommandWithTimeout outcome timeoutMs = ⟨false, false, false⟩) ∧
    (sendCommandWithTimeout outcome timeoutMs).callerException = false ∧
    (∀ t, outcome = .rejected t →
      (sendCommandWithTimeout outcome timeoutMs).onTimeoutInvoked = true) := by
  cases outcome with
  | fulfilled t =>
      by_cases h : t < timeoutMs <;>
        simp [sendCommandWithTimeout, outerSettle, networkFulfillsWithin, h]
  | rejected t =>
      simp [sendCommandWithTimeout, outerSettle, networkFulfillsWithin]
  | never =>
      simp [sendCommandWithTimeout, outerSettle, networkFulfillsWithin]

/-- Witness for `sendCommandWithTimeout_spec`: a fetch fulfilled at 100 ms
against a 500 ms deadline invokes nothing further, and the same theorem
instantiated at a fetch rejected at 100 ms shows the rejection surfaces
only through the timeout path. -/
theorem sendCommandWithTimeout_spec_witness :
    sendCommandWithTimeout (.fulfilled 100) 500 = ⟨false, false, false⟩ ∧
      (sendCommandWithTimeout (.rejected 100) 500).onTimeoutInvoked = true ∧
      (sendCommandWithTimeout (.rejected 100) 500).callerException = false :=
  ⟨(sendCommandWithTimeout_spec (.fulfilled 100) 500).2.1 (by decide),
    (sendCommandWithTimeout_spec (.rejected 100) 500).2.2.2 100 rfl,
    (sendCommandWithTimeout_spec (.rejected 100) 500).2.2.1⟩

/-! ## Remove-queue-item lock

Embeds `onRemove` from the queue-list component concatenated into
`src/app/src/lib/queue/ActiveAudio.svelte` (identical in the unnamed
source part 005):

```
const onRemove = async (index) => \x7b
  if (!deleteAllowed) \x7b return; \x7d
  const cmd = \x7b REMOVE_QUEUE_ITEM: \x7b index \x7d \x7d;
  deleteAllowed = false; // lock deletes since they are index based and could overlap
  await sendCommandWithTimeout(cmd, nodeName, 3000, () => \x7b deleteAllowed = true; \x7d);
  deleteAllowed = true;
\x7d;
```

The `complete` event below is the settlement of the awaited
`sendCommandWithTimeout` promise: either the fetch fulfilled within the
3000 ms deadline or the deadline timer fired (`onTimeout` sets
`deleteAllowed = true`, and the continuation after the `await` sets it
again — both run before any further UI event, so they collapse into one
step).  The UI is single-threaded, so a run is an arbitrary interleaving
of `click` and `complete` events.
-/

structure RemoveState where
  deleteAllowed : Bool
  outstanding : Nat
deriving DecidableEq

/-- Component initial state: `deleteAllowed = true`, nothing in flight. -/
def removeInit : RemoveState := ⟨true, 0⟩

inductive RemoveEvent where
  | click
  | complete
deriving DecidableEq

/-- One event step; the second component is the number of
`REMOVE_QUEUE_ITEM` commands sent during the step. -/
def removeStep (s : RemoveState) : RemoveEvent → RemoveState × Nat
  | .click =>
      if s.deleteAllowed then (⟨false, s.outstanding + 1⟩, 1) else (s, 0)
  | .complete =>
      if s.outstanding = 0 then (s, 0) else (⟨true, s.outstanding - 1⟩, 0)

/-- Run a sequence of events from the initial state. -/
def removeRun (evs : List RemoveEvent) : RemoveState :=
  evs.foldl (fun s e => (removeStep s e).1) removeInit

/-- The invariant tying the client lock to the in-flight count. -/
def RemoveInvariant (s : RemoveState) : Prop :=
  s.outstanding ≤ 1 ∧ (s.deleteAllowed = true → s.outstanding = 0)

lemma removeStep_preserves (s : RemoveState) (e : RemoveEvent)
    (h : RemoveInvariant s) : RemoveInvariant (removeStep s e).1 := by
  obtain ⟨h1, h2⟩ := h
  cases e with
  | click =>
      by_cases hd : s.deleteAllowed = true
      · simp [removeStep, hd, RemoveInvariant, h2 hd]
      · simp only [Bool.not_eq_true] at hd
        simp [removeStep, hd, RemoveInvariant, h1, h2]
  | complete =>
      by_cases ho : s.outstanding = 0
      · simp [removeStep, ho, RemoveInvariant, h1, h2]
      · simp [removeStep, ho, RemoveInvariant]
        omega

lemma removeRun_invariant (evs : List RemoveEvent) :
    RemoveInvariant (removeRun evs) := by
  suffices h : ∀ s, RemoveInvariant s →
      RemoveInvariant (evs.foldl (fun s e => (removeStep s e).1) s) by
    exact h removeInit ⟨by decide, fun _ => rfl⟩
  induction evs with
  | nil => intro s hs; exact hs
  | cons e tl ih =>
      intro s hs
      exact ih _ (removeStep_preserves s e hs)

/-- C3: while a remove is pending the client lock is down
(`deleteAllowed = false`) and a further `onRemove` click sends no command
and changes no state; the lock comes back up exactly at the settlement of
the pending `sendCommandWithTimeout` (fetch fulfilled in time or its
3000 ms timeout fired); and along every event interleaving from the
initial state at most one remove command is outstanding, with the lock up
only when none is. -/
theorem onRemove_lock_discipline (s : RemoveState) (evs : List RemoveEvent)
    (hlocked : s.deleteAllowed = false) :
    removeStep s .click = (s, 0) ∧
      (s.outstanding ≠ 0 → (removeStep s .complete).1.deleteAllowed = true) ∧
      (removeRun evs).outstanding ≤ 1 ∧
      ((removeRun evs).deleteAllowed = true →
        (removeRun evs).outstanding = 0) := by
  refine ⟨by simp [removeStep, hlocked], fun ho => by simp [removeStep, ho],
    (removeRun_invariant evs).1, (removeRun_invariant evs).2⟩

/-- Witness for `onRemove_lock_discipline`: after one click the lock is
down, a second click is a no-op, and the interleaving
click–click–complete–click ends with one command at most in flight. -/
theorem onRemove_lock_discipline_witness :
    (removeRun [.click]).deleteAllowed = false ∧
      (removeStep (removeRun [.click]) .click = (removeRun [.click], 0) ∧
        ((removeRun [.click]).outstanding ≠ 0 →
          (removeStep (removeRun [.click]) .complete).1.deleteAllowed = true) ∧
        (removeRun [.click, .click, .complete, .click]).outstanding ≤ 1 ∧
        ((removeRun [.click, .click, .complete, .click]).deleteAllowed = true →
          (removeRun [.click, .click, .complete, .click]).outstanding = 0)) :=
  ⟨rfl, onRemove_lock_discipline (removeRun [.click])
    [.click, .click, .complete, .click] rfl⟩

/-! ## Progress-bar scrubbing

Embeds the scrub logic of the player component in
`src/app/src/lib/queue/ActiveAudio.svelte` (`onBarDragStart`, `onBarDrag`,
`onBarDragEnd`, the 100 ms hold timer, and the reactive statement
syncing `localProgress` from the server) and `onProgressBarClick` of
`src/app/src/lib/audio/QueueItemPlaying.svelte`.

Pixel coordinates are rationals; `x` stands for
`e.clientX - rect.left` and `w` for `rect.width`.  Event-validity
side conditions record what the DOM guarantees: a rendered, clickable
bar has positive width (ruling out the JavaScript `NaN` from a division
by zero, which has no rational counterpart), and the server-reported
`audioProgress` respects the spec's PlaybackInfo invariant of lying in
`[0, 1]`.
-/

/-- Source `Math.max(Math.min(x / rect.width, 1), 0)` from `onBarDragStart` and
`onBarDrag`. -/
def clampProgress01 (x w : ℚ) : ℚ := max (min (x / w) 1) 0

structure ScrubState where
  holdingBar : Bool
  delaySet : Bool
  localProgress : ℚ
deriving DecidableEq

/-- Component initial state: not holding, no pending hold timer,
`localProgress = 0`. -/
def scrubInit : ScrubState := ⟨false, false, 0⟩

inductive ScrubEvent where
  /-- Mousedown on the bar (`onBarDragStart`): clamp and store the
  position, start the 100 ms hold timer. -/
  | mousedown (x w : ℚ)
  /-- The 100 ms hold timer fires: `holdingBar = true` (the stale timer
  handle stays assigned until mouseup clears it). -/
  | delayFire
  /-- Window mousemove (`onBarDrag`): while holding, clamp and store. -/
  | mousemove (x w : ℚ)
  /-- Window mouseup (`onBarDragEnd`); `onBar` records whether the event
  target is the bar element or inside it. -/
  | mouseup (onBar : Bool)
  /-- The 100 ms post-release timer: `holdingBar = false`. -/
  | holdRelease
  /-- The reactive statement
  `if (!holdingBar && !setHoldingBarWithDelay) localProgress = playbackInfo?.audioProgress ?? 0`. -/
  | serverUpdate (p : ℚ)

/-- DOM-level facts about each event (see the section comment). -/
def ScrubEvent.valid : ScrubEvent → Prop
  | .mousedown _ w => 0 < w
  | .mousemove _ w => 0 < w
  | .serverUpdate p => 0 ≤ p ∧ p ≤ 1
  | _ => True

/-- One event step; the second component is the `progress` payload of a
`SET_AUDIO_PROGRESS` command sent during the step, if any.  Only
`onBarDragEnd` sends one, and only when the mouse was held on the bar or
released over it; it sends the current `localProgress` unchanged. -/
def scrubStep (s : ScrubState) : ScrubEvent → ScrubState × Option ℚ
  | .mousedown x w =>
      ({ s with localProgress := clampProgress01 x w, delaySet := true }, none)
  | .delayFire =>
      (if s.delaySet then { s with holdingBar := true } else s, none)
  | .mousemove x w =>
      (if s.holdingBar then { s with localProgress := clampProgress01 x w }
       else s, none)
  | .mouseup onBar =>
      if !s.holdingBar && !onBar then (s, none)
      else ({ s with delaySet := false }, some s.localProgress)
  | .holdRelease => ({ s with holdingBar := false }, none)
  | .serverUpdate p =>
      (if !s.holdingBar && !s.delaySet then { s with localProgress := p }
       else s, none)

/-- Run a sequence of scrub events from the initial state, collecting
every sent `SET_AUDIO_PROGRESS` payload. -/
def scrubRun (evs : List ScrubEvent) : ScrubState × List ℚ :=
  evs.foldl
    (fun acc e =>
      ((scrubStep acc.1 e).1, acc.2 ++ (scrubStep acc.1 e).2.toList))
    (scrubInit, [])

/-- Source `onProgressBarClick(e)` of `QueueItemPlaying.svelte`: sends
`SET_AUDIO_PROGRESS \x7b progress: e.offsetX / progressBarWidth \x7d`, with no
clamping. -/
def onProgressBarClick (offsetX progressBarWidth : ℚ) : ℚ :=
  offsetX / progressBarWidth

lemma clampProgress01_mem (x w : ℚ) :
    0 ≤ clampProgress01 x w ∧ clampProgress01 x w ≤ 1 := by
  unfold clampProgress01
  constructor
  · exact le_max_right _ _
  · exact max_le (min_le_right _ _) zero_le_one

lemma scrubStep_localProgress_mem (s : ScrubState) (e : ScrubEvent)
    (hs : 0 ≤ s.localProgress ∧ s.localProgress ≤ 1) (he : e.valid) :
    0 ≤ (scrubStep s e).1.localProgress ∧
      (scrubStep s e).1.localProgress ≤ 1 := by
  cases e with
  | mousedown x w => exact clampProgress01_mem x w
  | delayFire => by_cases h : s.delaySet = true <;> simp [scrubStep, h, hs]
  | mousemove x w =>
      by_cases h : s.holdingBar = true <;>
        simp [scrubStep, h, hs, clampProgress01_mem x w]
  | mouseup onBar =>
      by_cases h : (!s.holdingBar && !onBar) = true <;> simp [scrubStep, h, hs]
  | holdRelease => exact hs
  | serverUpdate p =>
      by_cases h1 : s.holdingBar
      · simp [scrubStep, h1, hs]
      · by_cases h2 : s.delaySet
        · simp [scrubStep, h1, h2, hs]
        · simpa [scrubStep, h1, h2] using he

lemma scrubStep_emit_mem (s : ScrubState) (e : ScrubEvent)
    (hs : 0 ≤ s.localProgress ∧ s.localProgress ≤ 1) (q : ℚ)
    (hq : q ∈ (scrubStep s e).2.toList) : 0 ≤ q ∧ q ≤ 1 := by
  cases e with
  | mousedown x w => simp [scrubStep] at hq
  | delayFire => simp [scrubStep] at hq
  | mousemove x w =>
      by_cases h : s.holdingBar = true <;> simp [scrubStep, h] at hq
  | mouseup onBar =>
      by_cases h : (!s.holdingBar && !onBar) = true
      · simp [scrubStep, h] at hq
      · simp [scrubStep, h] at hq
        exact hq ▸ hs
  | holdRelease => simp [scrubStep] at hq
  | serverUpdate p =>
      by_cases h : (!s.holdingBar && !s.delaySet) = true <;>
        simp [scrubStep, h] at hq

lemma scrubRun_sound (evs : List ScrubEvent)
    (hv : ∀ e ∈ evs, e.valid) :
    (0 ≤ (scrubRun evs).1.localProgress ∧
      (scrubRun evs).1.localProgress ≤ 1) ∧
    ∀ q ∈ (scrubRun evs).2, 0 ≤ q ∧ q ≤ 1 := by
  suffices h : ∀ (s : ScrubState) (out : List ℚ),
      (0 ≤ s.localProgress ∧ s.localProgress ≤ 1) →
      (∀ q ∈ out, 0 ≤ q ∧ q ≤ 1) →
      (0 ≤ (evs.foldl
          (fun acc e =>
            ((scrubStep acc.1 e).1, acc.2 ++ (scrubStep acc.1 e).2.toList))
          (s, out)).1.localProgress ∧
        (evs.foldl
          (fun acc e =>
            ((scrubStep acc.1 e).1, acc.2 ++ (scrubStep acc.1 e).2.toList))
          (s, out)).1.localProgress ≤ 1) ∧
      ∀ q ∈ (evs.foldl
          (fun acc e =>
            ((scrubStep acc.1 e).1, acc.2 ++ (scrubStep acc.1 e).2.toList))
          (s, out)).2, 0 ≤ q ∧ q ≤ 1 by
    exact h scrubInit [] (by constructor <;> norm_num [scrubInit])
      (by intro q hq; simp at hq)
  induction evs with
  | nil => intro s out hs hout; exact ⟨hs, hout⟩
  | cons e tl ih =>
      intro s out hs hout
      have he : e.valid := hv e (List.mem_cons_self e tl)
      have hv' : ∀ e ∈ tl, ScrubEvent.valid e :=
        fun e2 h2 => hv e2 (List.mem_cons_of_mem e h2)
      rw [List.foldl_cons]
      refine ih hv' _ _ (scrubStep_localProgress_mem s e hs he) ?_
      intro q hq
      rcases List.mem_append.1 hq with h | h
      · exact hout q h
      · exact scrubStep_emit_mem s e hs q h

/-- C9: every `progress` payload of a `SET_AUDIO_PROGRESS` command lies in
`[0, 1]`, on both scrub paths.  Drag path: along any event interleaving
whose events satisfy the DOM facts (positive bar width on pointer events,
server progress in `[0, 1]` per the PlaybackInfo invariant) every payload
sent by `onBarDragEnd` is in `[0, 1]` — the pointer coordinate itself is
unconstrained, matching drags far outside the bar, because
`onBarDragStart`/`onBarDrag` clamp it.  Click path: `onProgressBarClick`
divides the click offset by the bar width without clamping, but a click
landing on the bar has `0 ≤ offsetX ≤ width`, so its payload is also in
`[0, 1]` (a pointer outside the bar fires no click on it and sends
nothing). -/
theorem scrub_progress_in_unit_interval (evs : List ScrubEvent)
    (offsetX w : ℚ) (hv : ∀ e ∈ evs, e.valid)
    (h0 : 0 ≤ offsetX) (hw : offsetX ≤ w) (hpos : 0 < w) :
    (∀ q ∈ (scrubRun evs).2, 0 ≤ q ∧ q ≤ 1) ∧
      0 ≤ onProgressBarClick offsetX w ∧ onProgressBarClick offsetX w ≤ 1 := by
  refine ⟨(scrubRun_sound evs hv).2, ?_, ?_⟩
  · exact div_nonneg h0 (le_of_lt hpos)
  · rw [onProgressBarClick, div_le_one hpos]
    exact hw

/-- Witness for `scrub_progress_in_unit_interval`: a drag that starts at
pixel 50 of a 200-wide bar, is held, moves to pixel 350 (past the right
edge), and is released on the bar, together with a direct click at pixel
120 of a 200-wide bar. -/
theorem scrub_progress_in_unit_interval_witness :
    (∀ e ∈ [ScrubEvent.mousedown 50 200, ScrubEvent.delayFire,
        ScrubEvent.mousemove 350 200, ScrubEvent.mouseup true],
      e.valid) ∧
    (0 : ℚ) ≤ 120 ∧ (120 : ℚ) ≤ 200 ∧ (0 : ℚ) < 200 ∧
    ((∀ q ∈ (scrubRun [ScrubEvent.mousedown 50 200, ScrubEvent.delayFire,
        ScrubEvent.mousemove 350 200, ScrubEvent.mouseup true]).2,
        0 ≤ q ∧ q ≤ 1) ∧
      0 ≤ onProgressBarClick 120 200 ∧ onProgressBarClick 120 200 ≤ 1) := by
  refine ⟨?_, by norm_num, by norm_num, by norm_num,
    scrub_progress_in_unit_interval _ 120 200 ?_ (by norm_num) (by norm_num)
      (by norm_num)⟩ <;>
  · intro e he
    fin_cases he <;> norm_num [ScrubEvent.valid]

/-! ## JSON values and the wire codec

The message codec of the repository works on JavaScript values produced
by `JSON.parse` and serialized by `JSON.stringify`.  `Json` below is the
value model: numbers are modeled as integers (the command payloads carry
indices and positions; decimal fractions and exponents are outside the
model), strings are arbitrary Unicode, and objects keep their fields in
wire order (`fieldGet` resolves duplicate keys last-wins, as `JSON.parse`
does).  `stringifyV` mirrors `JSON.stringify` (including its `\x5c"` ,
`\x5c\x5c`, `\x5cb`, `\x5cf`, `\x5cn`, `\x5cr`, `\x5ct` and `\x5cu00xx`
escapes), and `parseVal`/`jsonParse` mirror `JSON.parse` (whitespace
skipping, the same escape set plus `\x5c/` and `\x5cuXXXX`, rejection of
raw control characters inside strings, full-input consumption).  Known
leniencies of the model, none reachable from the codec's own output:
leading zeros in numbers are accepted, fraction/exponent syntax is not,
and property access on arrays/strings by numeric index is modeled as
absent (capability keys are non-numeric).
-/

def quoteC : Char := Char.ofNat 34

def backslashC : Char := Char.ofNat 92

def lbraceC : Char := Char.ofNat 123

def rbraceC : Char := Char.ofNat 125

/-- JSON whitespace accepted by `JSON.parse`: space, tab, newline,
carriage return. -/
def isWsC (c : Char) : Bool :=
  c.toNat = 32 || c.toNat = 9 || c.toNat = 10 || c.toNat = 13

def isDigitC (c : Char) : Bool := 48 ≤ c.toNat && c.toNat ≤ 57

def digitVal (c : Char) : Nat := c.toNat - 48

def skipWs : List Char → List Char
  | [] => []
  | c :: cs => if isWsC c then skipWs cs else c :: cs

def digitChar : Nat → Char
  | 0 => '0' | 1 => '1' | 2 => '2' | 3 => '3' | 4 => '4'
  | 5 => '5' | 6 => '6' | 7 => '7' | 8 => '8' | _ => '9'

def hexChar : Nat → Char
  | 0 => '0' | 1 => '1' | 2 => '2' | 3 => '3' | 4 => '4'
  | 5 => '5' | 6 => '6' | 7 => '7' | 8 => '8' | 9 => '9'
  | 10 => 'a' | 11 => 'b' | 12 => 'c' | 13 => 'd' | 14 => 'e' | _ => 'f'

def hexVal (c : Char) : Option Nat :=
  if 48 ≤ c.toNat ∧ c.toNat ≤ 57 then some (c.toNat - 48)
  else if 97 ≤ c.toNat ∧ c.toNat ≤ 102 then some (c.toNat - 87)
  else if 65 ≤ c.toNat ∧ c.toNat ≤ 70 then some (c.toNat - 55)
  else none

/-- Fuel-indexed digit renderer; the fuel only bounds the recursion
depth (one division by ten per step). -/
def natCharsAux : Nat → Nat → List Char
  | 0, _ => []
  | fuel + 1, n =>
    if n < 10 then [digitChar n]
    else natCharsAux fuel (n / 10) ++ [digitChar (n % 10)]

/-- Decimal digits of a natural number, most significant first. -/
def natChars (n : Nat) : List Char := natCharsAux (n + 1) n

/-- Rendering of an integer as `JSON.stringify` renders integral
numbers. -/
def intChars (n : Int) : List Char :=
  if n < 0 then '-' :: natChars (-n).toNat else natChars n.toNat

/-- Escape one character as `JSON.stringify` does inside string
literals. -/
def escC (c : Char) : List Char :=
  if c.toNat = 34 then [backslashC, quoteC]
  else if c.toNat = 92 then [backslashC, backslashC]
  else if c.toNat = 8 then [backslashC, 'b']
  else if c.toNat = 12 then [backslashC, 'f']
  else if c.toNat = 10 then [backslashC, 'n']
  else if c.toNat = 13 then [backslashC, 'r']
  else if c.toNat = 9 then [backslashC, 't']
  else if c.toNat < 32 then
    [backslashC, 'u', '0', '0', hexChar (c.toNat / 16), hexChar (c.toNat % 16)]
  else [c]

def escapeStr : List Char → List Char
  | [] => []
  | c :: cs => escC c ++ escapeStr cs

/-- Resolve a single-character escape of a JSON string literal. -/
def unescC (c : Char) : Option Char :=
  if c.toNat = 34 then some quoteC
  else if c.toNat = 92 then some backslashC
  else if c.toNat = 47 then some (Char.ofNat 47)
  else if c.toNat = 98 then some (Char.ofNat 8)
  else if c.toNat = 102 then some (Char.ofNat 12)
  else if c.toNat = 110 then some (Char.ofNat 10)
  else if c.toNat = 114 then some (Char.ofNat 13)
  else if c.toNat = 116 then some (Char.ofNat 9)
  else none

/-- Read the body of a JSON string literal (the opening quote already
consumed), returning the decoded characters and the input after the
closing quote.  Raw control characters are rejected, as `JSON.parse`
rejects them. -/
def readStr : List Char → Option (List Char × List Char)
  | [] => none
  | c :: cs =>
    if c.toNat = 34 then some ([], cs)
    else if c.toNat = 92 then
      match cs with
      | [] => none
      | e :: cs2 =>
        if e.toNat = 117 then
          match cs2 with
          | a :: b :: c2 :: d :: cs3 =>
            match hexVal a, hexVal b, hexVal c2, hexVal d with
            | some ha, some hb, some hc, some hd =>
              match readStr cs3 with
              | some (s, r) =>
                  some (Char.ofNat (((ha * 16 + hb) * 16 + hc) * 16 + hd) :: s, r)
              | none => none
            | _, _, _, _ => none
          | _ => none
        else
          match unescC e with
          | some ch =>
            match readStr cs2 with
            | some (s, r) => some (ch :: s, r)
            | none => none
          | none => none
    else if c.toNat < 32 then none
    else
      match readStr cs with
      | some (s, r) => some (c :: s, r)
      | none => none

/-- Accumulating decimal-digit reader. -/
def parseDigits (acc : Nat) : List Char → Nat × List Char
  | [] => (acc, [])
  | c :: cs =>
    if isDigitC c then parseDigits (acc * 10 + digitVal c) cs else (acc, c :: cs)

mutual
inductive Json where
  | null : Json
  | bool : Bool → Json
  | num : Int → Json
  | str : String → Json
  | arr : JsonList → Json
  | obj : JsonFields → Json

inductive JsonList where
  | lnil : JsonList
  | lcons : Json → JsonList → JsonList

inductive JsonFields where
  | fnil : JsonFields
  | fcons : String → Json → JsonFields → JsonFields
end

mutual
/-- Mirror of `JSON.stringify` on the value model. -/
def stringifyV : Json → List Char
  | .null => 'n' :: 'u' :: 'l' :: 'l' :: []
  | .bool true => 't' :: 'r' :: 'u' :: 'e' :: []
  | .bool false => 'f' :: 'a' :: 'l' :: 's' :: 'e' :: []
  | .num n => intChars n
  | .str s => quoteC :: escapeStr s.toList ++ [quoteC]
  | .arr vs => '[' :: stringifyL vs ++ [']']
  | .obj fs => lbraceC :: stringifyF fs ++ [rbraceC]

/-- Comma-separated serialization of an array body. -/
def stringifyL : JsonList → List Char
  | .lnil => []
  | .lcons v .lnil => stringifyV v
  | .lcons v (.lcons w ws) => stringifyV v ++ ',' :: stringifyL (.lcons w ws)

/-- Comma-separated serialization of a field list. -/
def stringifyF : JsonFields → List Char
  | .fnil => []
  | .fcons k v .fnil =>
      quoteC :: escapeStr k.toList ++ quoteC :: ':' :: stringifyV v
  | .fcons k v (.fcons k2 w fs) =>
      (quoteC :: escapeStr k.toList ++ quoteC :: ':' :: stringifyV v) ++
        ',' :: stringifyF (.fcons k2 w fs)
end

mutual
/-- Fuel-indexed recursive-descent mirror of `JSON.parse`; returns the
parsed value and the unconsumed input. -/
def parseVal : Nat → List Char → Option (Json × List Char)
  | 0, _ => none
  | fuel + 1, l =>
    match skipWs l with
    | [] => none
    | c :: cs =>
      if c.toNat = 123 then
        match skipWs cs with
        | [] => none
        | c2 :: cs2 =>
          if c2.toNat = 125 then some (.obj .fnil, cs2)
          else
            match parseFields fuel (c2 :: cs2) with
            | some (fs, r) => some (.obj fs, r)
            | none => none
      else if c.toNat = 91 then
        match skipWs cs with
        | [] => none
        | c2 :: cs2 =>
          if c2.toNat = 93 then some (.arr .lnil, cs2)
          else
            match parseElems fuel (c2 :: cs2) with
            | some (vs, r) => some (.arr vs, r)
            | none => none
      else if c.toNat = 34 then
        match readStr cs with
        | some (s, r) => some (.str ⟨s⟩, r)
        | none => none
      else if c.toNat = 110 then
        match cs with
        | 'u' :: 'l' :: 'l' :: r => some (.null, r)
        | _ => none
      else if c.toNat = 116 then
        match cs with
        | 'r' :: 'u' :: 'e' :: r => some (.bool true, r)
        | _ => none
      else if c.toNat = 102 then
        match cs with
        | 'a' :: 'l' :: 's' :: 'e' :: r => some (.bool false, r)
        | _ => none
      else if c.toNat = 45 then
        match cs with
        | [] => none
        | d :: ds =>
          if isDigitC d then
            some (.num (-(Int.ofNat (parseDigits (digitVal d) ds).1)),
              (parseDigits (digitVal d) ds).2)
          else none
      else if isDigitC c then
        some (.num (Int.ofNat (parseDigits (digitVal c) cs).1),
          (parseDigits (digitVal c) cs).2)
      else none

/-- Parse the elements of a nonempty array body up to and including the
closing bracket. -/
def parseElems : Nat → List Char → Option (JsonList × List Char)
  | 0, _ => none
  | fuel + 1, l =>
    match parseVal fuel l with
    | some (v, r) =>
      match skipWs r with
      | [] => none
      | c :: cs =>
        if c.toNat = 44 then
          match parseElems fuel cs with
          | some (vs, r2) => some (.lcons v vs, r2)
          | none => none
        else if c.toNat = 93 then some (.lcons v .lnil, cs)
        else none
    | none => none

/-- Parse the fields of a nonempty object body up to and including the
closing brace. -/
def parseFields : Nat → List Char → Option (JsonFields × List Char)
  | 0, _ => none
  | fuel + 1, l =>
    match skipWs l with
    | [] => none
    | c :: cs =>
      if c.toNat = 34 then
        match readStr cs with
        | some (k, r) =>
          match skipWs r with
          | [] => none
          | c2 :: cs2 =>
            if c2.toNat = 58 then
              match parseVal fuel cs2 with
              | some (v, r2) =>
                match skipWs r2 with
                | [] => none
                | c3 :: cs3 =>
                  if c3.toNat = 44 then
                    match parseFields fuel cs3 with
                    | some (fs, r3) => some (.fcons ⟨k⟩ v fs, r3)
                    | none => none
                  else if c3.toNat = 125 then some (.fcons ⟨k⟩ v .fnil, cs3)
                  else none
              | none => none
            else none
        | none => none
      else none
end

/-- Mirror of `JSON.parse(s)`: parse one value, require the rest of the
input to be whitespace, fail (`none`, standing for the thrown
`SyntaxError`) otherwise. -/
def jsonParse (s : String) : Option Json :=
  match parseVal (s.toList.length + 1) s.toList with
  | some (v, rest) => if skipWs rest = [] then some v else none
  | none => none

/-- Field lookup with the duplicate-key semantics of `JSON.parse`: the
last binding of a key wins. -/
def fieldGet : JsonFields → String → Option Json
  | .fnil, _ => none
  | .fcons k v fs, key =>
    match fieldGet fs key with
    | some r => some r
    | none => if k = key then some v else none

/-- JavaScript property read `data[key]`, `undefined` modeled as `none`.
Only object properties are modeled; numeric index access on
arrays/strings is treated as absent (the codec's keys are capability
tags, never numeric strings). -/
def jsGet : Json → String → Option Json
  | .obj fs, key => fieldGet fs key
  | _, _ => none

/-! ## Response dispatch and message encoding

Two `handleResponse` variants exist in the sources.
`src/app/src/schema/messages/response.ts` (also the unnamed parts 003 and
007):

```
export function handleResponse(response: any, handlers: ResponseHandler[]) \x7b
  let data = JSON.parse(response);
  for (const handler of handlers) \x7b
    let key = handler[0]; let handle = handler[1];
    if (data[key] !== undefined) \x7b handle(data[key]); \x7d
  \x7d
\x7d
```

`src/audio-manager/app/src/schema/messages/response.ts` adds a bare-tag
clause to the condition: `data[key] !== undefined || response === ` the
key wrapped in double quotes.

Both are embedded as functions from the raw message and the handler table
(a list of key/handler pairs, handlers abstracted to tokens of type `α`)
to `Except`: `.error` is the `SyntaxError` that `JSON.parse` throws out
of `handleResponse` (it has no try/catch), `.ok` carries the invocation
sequence, each invocation with the `data[key]` argument the handler
receives (`none` = `undefined`).

Two `msgString` variants exist.
`src/app/src/schema/messages/message.ts` handles only the 2-tuple form;
under JavaScript runtime semantics a 1-tuple passed anyway makes
`msg[1]` `undefined`, `JSON.stringify(undefined)` return `undefined`, and
the template literal render the text `undefined`.
`src/audio-manager/app/src/schema/messages/message.ts` dispatches on
`msg.length`: a 1-tuple renders as the tag wrapped in quotes (the
template `"$\x7bmsg\x7d"` stringifies the one-element array to its single
element), a 2-tuple as `\x7b "TAG": <json>\x7d`.
-/

def jsonSyntaxError : String := "SyntaxError: unexpected token in JSON"

/-- The text `response === ` is compared against in the audio-manager
variant: the key wrapped in double quotes. -/
def quoteWrap (k : String) : String := ⟨quoteC :: k.toList ++ [quoteC]⟩

/-- Embedding of the `src/app` `handleResponse` (dispatch condition
`data[key] !== undefined`). -/
def handleResponseApp {α : Type} (response : String)
    (handlers : List (String × α)) : Except String (List (α × Option Json)) :=
  match jsonParse response with
  | none => Except.error jsonSyntaxError
  | some data =>
      Except.ok (handlers.filterMap fun kh =>
        if (jsGet data kh.1).isSome then some (kh.2, jsGet data kh.1)
        else none)

/-- Embedding of the `src/audio-manager` `handleResponse` (dispatch
condition `data[key] !== undefined || response === ` the quoted key). -/
def handleResponseAM {α : Type} (response : String)
    (handlers : List (String × α)) : Except String (List (α × Option Json)) :=
  match jsonParse response with
  | none => Except.error jsonSyntaxError
  | some data =>
      Except.ok (handlers.filterMap fun kh =>
        if (jsGet data kh.1).isSome ∨ response = quoteWrap kh.1 then
          some (kh.2, jsGet data kh.1)
        else none)

/-- The session page's receive path (unnamed source part 006):
`websocket.onmessage = (event) => \x7b handleResponse(event.data, handlers); \x7d`
with no try/catch — a `JSON.parse` failure escapes the message handler. -/
def part006OnMessage {α : Type} (raw : String)
    (handlers : List (String × α)) : Except String (List (α × Option Json)) :=
  handleResponseAM raw handlers

def sessionConnectedKey : String := "SESSION_CONNECTED_RESPONSE"

def queueKey : String := "QUEUE"

def audioStateInfoKey : String := "AUDIO_STATE_INFO"

/-- Client view-model state touched by the node-queue page's socket
listener; queue values are kept as raw JSON values. -/
structure PageState where
  queue : Json
  audioStateInfo : Option Json

/-- JavaScript `x ?? d` applied to a property read: `null` and
`undefined` fall back to the default. -/
def nullishCoalesce (v : Option Json) (d : Json) : Json :=
  match v with
  | none => d
  | some .null => d
  | some x => x

/-- Body of the `try` block of the socket message listener of
`src/app/src/routes/queue/[node]/+page.svelte` (the audio-manager variant
is identical up to with which letter case it reads the snapshot's queue
field).  `.error` stands for a thrown `TypeError`: the `in` operator
applied to a primitive (a non-object, non-array parse result), or the
read `resp.SESSION_CONNECTED_RESPONSE.QUEUE` when that snapshot field is
`null`.  Both throws happen before any state assignment. -/
def pageApplyResp (resp : Json) (st : PageState) : Except Unit PageState :=
  match resp with
  | .obj fs =>
    match
      (match fieldGet fs sessionConnectedKey with
       | some .null => Except.error ()
       | some (.obj fs2) =>
           Except.ok { st with
             queue := nullishCoalesce (fieldGet fs2 queueKey) (.arr .lnil) }
       | some _ => Except.ok { st with queue := .arr .lnil }
       | none => Except.ok st) with
    | Except.error e => Except.error e
    | Except.ok st1 =>
      let st2 :=
        match fieldGet fs queueKey with
        | some v => { st1 with queue := nullishCoalesce (some v) (.arr .lnil) }
        | none => st1
      let st3 :=
        match fieldGet fs audioStateInfoKey with
        | some v => { st2 with audioStateInfo := some v }
        | none => st2
      Except.ok st3
  | .arr _ => Except.ok st
  | _ => Except.error ()

/-- The whole socket message listener of the node-queue pages:
`try \x7b ... \x7d catch (err) \x7b console.error(err); \x7d`.  Returns
the new state and whether an error was caught and logged; it is a total
function — nothing propagates past the catch. -/
def pageOnMessage (raw : String) (st : PageState) : PageState × Bool :=
  match jsonParse raw with
  | none => (st, true)
  | some resp =>
    match pageApplyResp resp st with
    | Except.ok st2 => (st2, false)
    | Except.error _ => (st, true)

/-- Embedding of the `src/audio-manager` `msgString` (handles both tuple
forms). -/
def msgStringAM (msg : String × Option Json) : String :=
  match msg.2 with
  | none => quoteWrap msg.1
  | some p =>
      ⟨lbraceC :: ' ' :: quoteC :: msg.1.toList ++
        quoteC :: ':' :: ' ' :: stringifyV p ++ [rbraceC]⟩

/-- The characters of the text `undefined` rendered by a template
literal interpolating the value `undefined`. -/
def undefinedChars : List Char :=
  'u' :: 'n' :: 'd' :: 'e' :: 'f' :: 'i' :: 'n' :: 'e' :: 'd' :: []

/-- Embedding of the `src/app` `msgString` (2-tuple template only), under
JavaScript runtime semantics also defined on a 1-tuple, where it renders
the text `undefined` in payload position. -/
def msgStringApp (msg : String × Option Json) : String :=
  ⟨lbraceC :: ' ' :: quoteC :: msg.1.toList ++
    quoteC :: ':' :: ' ' ::
      (match msg.2 with
       | some p => stringifyV p
       | none => undefinedChars) ++ [rbraceC]⟩

/-! ## Printer–parser round trip

The lemmas below show that `jsonParse` inverts the wire texts built by
the codec: decimal digits, escaped string literals, and finally whole
values.  They back the theorems for the codec claims.
-/

/-- A list that does not start with a decimal digit (so a rendered number
followed by it cannot absorb extra digits). -/
def notDigitHead : List Char → Prop
  | [] => True
  | c :: _ => isDigitC c = false

/-- One accumulator step of `parseDigits`. -/
def stepDigit (a : Nat) (c : Char) : Nat := a * 10 + digitVal c

/-- Numeric value of a digit string. -/
def digitsVal (l : List Char) : Nat := l.foldl stepDigit 0

lemma digitChar_toNat (d : Nat) (h : d < 10) : (digitChar d).toNat = 48 + d := by
  interval_cases d <;> rfl

lemma isDigitC_digitChar (d : Nat) (h : d < 10) :
    isDigitC (digitChar d) = true := by
  simp [isDigitC, digitChar_toNat d h]
  omega

lemma digitVal_digitChar (d : Nat) (h : d < 10) :
    digitVal (digitChar d) = d := by
  simp [digitVal, digitChar_toNat d h]

lemma natCharsAux_all_digits (fuel : Nat) :
    ∀ n, n < fuel → ∀ c ∈ natCharsAux fuel n, isDigitC c = true := by
  induction fuel with
  | zero => intro n h; omega
  | succ f ih =>
      intro n h c hc
      rw [natCharsAux] at hc
      by_cases h10 : n < 10
      · simp [h10] at hc
        exact hc ▸ isDigitC_digitChar n h10
      · simp [h10] at hc
        rcases hc with hc | hc
        · exact ih (n / 10) (by omega) c hc
        · exact hc ▸ isDigitC_digitChar (n % 10) (Nat.mod_lt n (by omega))

lemma natCharsAux_ne_nil (fuel n : Nat) (h : n < fuel) :
    natCharsAux fuel n ≠ [] := by
  cases fuel with
  | zero => omega
  | succ f =>
      rw [natCharsAux]
      by_cases h10 : n < 10 <;> simp [h10]

lemma foldl_stepDigit_shift (l : List Char) :
    ∀ a, l.foldl stepDigit a = a * 10 ^ l.length + digitsVal l := by
  induction l with
  | nil => intro a; simp [digitsVal]
  | cons c cs ih =>
      intro a
      have h0 : digitsVal (c :: cs) = digitVal c * 10 ^ cs.length + digitsVal cs := by
        rw [digitsVal, List.foldl_cons]
        have := ih (stepDigit 0 c)
        simpa [stepDigit] using this
      rw [List.foldl_cons, ih (stepDigit a c), h0, stepDigit]
      simp [List.length_cons, pow_succ]
      ring

lemma digitsVal_natCharsAux (fuel : Nat) :
    ∀ n, n < fuel → digitsVal (natCharsAux fuel n) = n := by
  induction fuel with
  | zero => intro n h; omega
  | succ f ih =>
      intro n h
      rw [natCharsAux]
      by_cases h10 : n < 10
      · simp [h10, digitsVal, stepDigit, digitVal_digitChar n h10]
      · simp only [h10, if_false]
        rw [digitsVal, List.foldl_append]
        have h1 : (natCharsAux f (n / 10)).foldl stepDigit 0 = n / 10 :=
          ih (n / 10) (by omega)
        rw [h1]
        simp [stepDigit, digitVal_digitChar (n % 10) (Nat.mod_lt n (by omega))]
        omega

lemma digitsVal_natChars (n : Nat) : digitsVal (natChars n) = n :=
  digitsVal_natCharsAux (n + 1) n (by omega)

lemma natChars_all_digits (n : Nat) : ∀ c ∈ natChars n, isDigitC c = true :=
  natCharsAux_all_digits (n + 1) n (by omega)

lemma natChars_ne_nil (n : Nat) : natChars n ≠ [] :=
  natCharsAux_ne_nil (n + 1) n (by omega)

lemma parseDigits_digits_append (l : List Char) :
    ∀ acc rest, (∀ c ∈ l, isDigitC c = true) →
      parseDigits acc (l ++ rest) = parseDigits (l.foldl stepDigit acc) rest := by
  induction l with
  | nil => intro acc rest _; rfl
  | cons c cs ih =>
      intro acc rest hall
      have hc : isDigitC c = true := hall c (List.mem_cons_self c cs)
      rw [List.cons_append, parseDigits, if_pos hc, List.foldl_cons]
      exact ih _ rest fun c2 h2 => hall c2 (List.mem_cons_of_mem c h2)

lemma parseDigits_stop (acc : Nat) (rest : List Char) (h : notDigitHead rest) :
    parseDigits acc rest = (acc, rest) := by
  cases rest with
  | nil => rfl
  | cons c cs =>
      rw [parseDigits, if_neg]
      simp only [notDigitHead] at h
      simp [h]

/-- Parsing the digits of `natChars n` (first digit pre-consumed, as
`parseVal` consumes it) recovers `n`. -/
lemma parseDigits_natChars (n : Nat) (c : Char) (cs rest : List Char)
    (hl : natChars n = c :: cs) (hrest : notDigitHead rest) :
    parseDigits (digitVal c) (cs ++ rest) = (n, rest) := by
  have hall : ∀ x ∈ cs, isDigitC x = true := fun x hx =>
    natChars_all_digits n x (hl ▸ List.mem_cons_of_mem c hx)
  rw [parseDigits_digits_append cs (digitVal c) rest hall,
    parseDigits_stop _ rest hrest]
  have h1 : (c :: cs).foldl stepDigit 0 = n := by
    rw [← hl]; exact digitsVal_natChars n
  rw [List.foldl_cons] at h1
  simp only [stepDigit, Nat.zero_mul, Nat.zero_add] at h1
  simp [h1]

lemma skipWs_cons_of_not_ws (c : Char) (l : List Char)
    (h : isWsC c = false) : skipWs (c :: l) = c :: l := by
  simp [skipWs, h]

lemma char_eq_of_toNat (c : Char) (n : Nat) (h : c.toNat = n) :
    c = Char.ofNat n := by
  rw [← h, Char.ofNat_toNat]

lemma hexVal_hexChar (d : Nat) (h : d < 16) : hexVal (hexChar d) = some d := by
  interval_cases d <;> rfl

lemma quoteC_toNat : quoteC.toNat = 34 := rfl

lemma backslashC_toNat : backslashC.toNat = 92 := rfl

lemma lbraceC_toNat : lbraceC.toNat = 123 := rfl

lemma rbraceC_toNat : rbraceC.toNat = 125 := rfl

lemma readStr_close (tail : List Char) :
    readStr (quoteC :: tail) = some ([], tail) := by
  rw [readStr.eq_def]
  simp [quoteC_toNat]

lemma readStr_bs_quote (tail : List Char) :
    readStr (backslashC :: quoteC :: tail) =
      (match readStr tail with
       | some (s, r) => some (quoteC :: s, r)
       | none => none) := by
  rw [readStr.eq_def]
  simp [unescC, backslashC_toNat, quoteC_toNat]

lemma readStr_bs_bs (tail : List Char) :
    readStr (backslashC :: backslashC :: tail) =
      (match readStr tail with
       | some (s, r) => some (backslashC :: s, r)
       | none => none) := by
  rw [readStr.eq_def]
  simp [unescC, backslashC_toNat]

lemma readStr_bs_b (tail : List Char) :
    readStr (backslashC :: 'b' :: tail) =
      (match readStr tail with
       | some (s, r) => some (Char.ofNat 8 :: s, r)
       | none => none) := by
  rw [readStr.eq_def]
  simp [unescC, backslashC_toNat, show ('b').toNat = 98 from rfl]

lemma readStr_bs_f (tail : List Char) :
    readStr (backslashC :: 'f' :: tail) =
      (match readStr tail with
       | some (s, r) => some (Char.ofNat 12 :: s, r)
       | none => none) := by
  rw [readStr.eq_def]
  simp [unescC, backslashC_toNat, show ('f').toNat = 102 from rfl]

lemma readStr_bs_n (tail : List Char) :
    readStr (backslashC :: 'n' :: tail) =
      (match readStr tail with
       | some (s, r) => some (Char.ofNat 10 :: s, r)
       | none => none) := by
  rw [readStr.eq_def]
  simp [unescC, backslashC_toNat, show ('n').toNat = 110 from rfl]

lemma readStr_bs_r (tail : List Char) :
    readStr (backslashC :: 'r' :: tail) =
      (match readStr tail with
       | some (s, r) => some (Char.ofNat 13 :: s, r)
       | none => none) := by
  rw [readStr.eq_def]
  simp [unescC, backslashC_toNat, show ('r').toNat = 114 from rfl]

lemma readStr_bs_t (tail : List Char) :
    readStr (backslashC :: 't' :: tail) =
      (match readStr tail with
       | some (s, r) => some (Char.ofNat 9 :: s, r)
       | none => none) := by
  rw [readStr.eq_def]
  simp [unescC, backslashC_toNat, show ('t').toNat = 116 from rfl]

lemma readStr_bs_u (a b c d : Char) (tail : List Char) :
    readStr (backslashC :: 'u' :: a :: b :: c :: d :: tail) =
      (match hexVal a, hexVal b, hexVal c, hexVal d with
       | some ha, some hb, some hc, some hd =>
         (match readStr tail with
          | some (s, r) =>
              some (Char.ofNat (((ha * 16 + hb) * 16 + hc) * 16 + hd) :: s, r)
          | none => none)
       | _, _, _, _ => none) := by
  rw [readStr.eq_def]
  simp [backslashC_toNat, show ('u').toNat = 117 from rfl]

lemma readStr_raw_cons (c : Char) (tail : List Char) (h34 : c.toNat ≠ 34)
    (h92 : c.toNat ≠ 92) (hc : 32 ≤ c.toNat) :
    readStr (c :: tail) =
      (match readStr tail with
       | some (s, r) => some (c :: s, r)
       | none => none) := by
  rw [readStr.eq_def]
  simp [h34, h92, Nat.not_lt.mpr hc]

/-- Reading back one escaped character. -/
lemma readStr_escC (c : Char) (tail s2 rest : List Char)
    (h : readStr tail = some (s2, rest)) :
    readStr (escC c ++ tail) = some (c :: s2, rest) := by
  by_cases h34 : c.toNat = 34
  · rw [char_eq_of_toNat c 34 h34, show Char.ofNat 34 = quoteC from rfl]
    simp [escC, quoteC_toNat, readStr_bs_quote, h]
  · by_cases h92 : c.toNat = 92
    · rw [char_eq_of_toNat c 92 h92, show Char.ofNat 92 = backslashC from rfl]
      simp [escC, backslashC_toNat, readStr_bs_bs, h]
    · by_cases h8 : c.toNat = 8
      · rw [char_eq_of_toNat c 8 h8]
        simp [escC, show (Char.ofNat 8).toNat = 8 from rfl, readStr_bs_b, h]
      · by_cases h12 : c.toNat = 12
        · rw [char_eq_of_toNat c 12 h12]
          simp [escC, show (Char.ofNat 12).toNat = 12 from rfl, readStr_bs_f, h]
        · by_cases h10 : c.toNat = 10
          · rw [char_eq_of_toNat c 10 h10]
            simp [escC, show (Char.ofNat 10).toNat = 10 from rfl, readStr_bs_n, h]
          · by_cases h13 : c.toNat = 13
            · rw [char_eq_of_toNat c 13 h13]
              simp [escC, show (Char.ofNat 13).toNat = 13 from rfl, readStr_bs_r, h]
            · by_cases h9 : c.toNat = 9
              · rw [char_eq_of_toNat c 9 h9]
                simp [escC, show (Char.ofNat 9).toNat = 9 from rfl, readStr_bs_t, h]
              · by_cases hctl : c.toNat < 32
                · have hchar : escC c =
                      [backslashC, 'u', '0', '0', hexChar (c.toNat / 16),
                        hexChar (c.toNat % 16)] := by
                    simp [escC, h34, h92, h8, h12, h10, h13, h9, hctl]
                  rw [hchar, List.cons_append, List.cons_append,
                    List.cons_append, List.cons_append, List.cons_append,
                    List.cons_append, List.nil_append, readStr_bs_u]
                  rw [show hexVal '0' = some 0 from rfl,
                    hexVal_hexChar (c.toNat / 16) (by omega),
                    hexVal_hexChar (c.toNat % 16) (by omega), h]
                  simp only []
                  rw [show ((0 * 16 + 0) * 16 + c.toNat / 16) * 16 +
                      c.toNat % 16 = c.toNat by omega, Char.ofNat_toNat]
                · have hchar : escC c = [c] := by
                    simp [escC, h34, h92, h8, h12, h10, h13, h9, hctl]
                  rw [hchar, List.cons_append, List.nil_append,
                    readStr_raw_cons c tail h34 h92 (by omega), h]

/-- Reading back a fully escaped string body terminated by the closing
quote. -/
lemma readStr_escape (s : List Char) : ∀ rest,
    readStr (escapeStr s ++ quoteC :: rest) = some (s, rest) := by
  induction s with
  | nil => intro rest; exact readStr_close rest
  | cons c cs ih =>
      intro rest
      rw [escapeStr, List.append_assoc]
      exact readStr_escC c _ cs rest (ih rest)

/-- Characters that the codec may interpolate raw into a string literal:
no quote, no backslash, no control character. -/
def rawSafeChar (c : Char) : Prop :=
  c.toNat ≠ 34 ∧ c.toNat ≠ 92 ∧ 32 ≤ c.toNat

/-- Reading back a raw (unescaped) interpolated text such as a message
tag, terminated by the closing quote. -/
lemma readStr_rawList (l : List Char) (hsafe : ∀ c ∈ l, rawSafeChar c) :
    ∀ rest, readStr (l ++ quoteC :: rest) = some (l, rest) := by
  induction l with
  | nil => intro rest; exact readStr_close rest
  | cons c cs ih =>
      intro rest
      obtain ⟨h34, h92, hge⟩ := hsafe c (List.mem_cons_self c cs)
      rw [List.cons_append, readStr_raw_cons c _ h34 h92 hge,
        ih (fun x hx => hsafe x (List.mem_cons_of_mem c hx)) rest]

lemma mk_toList (s : String) : String.mk s.toList = s := rfl

lemma mk_data (s : String) : String.mk s.data = s := rfl

/-- The dispatch body of `parseVal` once the input has been
whitespace-stripped to a nonempty list (definitionally equal to the
corresponding match arm of `parseVal`). -/
def parseValBody (fuel : Nat) (c : Char) (cs : List Char) :
    Option (Json × List Char) :=
  if c.toNat = 123 then
    match skipWs cs with
    | [] => none
    | c2 :: cs2 =>
      if c2.toNat = 125 then some (.obj .fnil, cs2)
      else
        match parseFields fuel (c2 :: cs2) with
        | some (fs, r) => some (.obj fs, r)
        | none => none
  else if c.toNat = 91 then
    match skipWs cs with
    | [] => none
    | c2 :: cs2 =>
      if c2.toNat = 93 then some (.arr .lnil, cs2)
      else
        match parseElems fuel (c2 :: cs2) with
        | some (vs, r) => some (.arr vs, r)
        | none => none
  else if c.toNat = 34 then
    match readStr cs with
    | some (s, r) => some (.str ⟨s⟩, r)
    | none => none
  else if c.toNat = 110 then
    match cs with
    | 'u' :: 'l' :: 'l' :: r => some (.null, r)
    | _ => none
  else if c.toNat = 116 then
    match cs with
    | 'r' :: 'u' :: 'e' :: r => some (.bool true, r)
    | _ => none
  else if c.toNat = 102 then
    match cs with
    | 'a' :: 'l' :: 's' :: 'e' :: r => some (.bool false, r)
    | _ => none
  else if c.toNat = 45 then
    match cs with
    | [] => none
    | d :: ds =>
      if isDigitC d then
        some (.num (-(Int.ofNat (parseDigits (digitVal d) ds).1)),
          (parseDigits (digitVal d) ds).2)
      else none
  else if isDigitC c then
    some (.num (Int.ofNat (parseDigits (digitVal c) cs).1),
      (parseDigits (digitVal c) cs).2)
  else none

lemma parseVal_succ_skip (f : Nat) (l : List Char) (c : Char) (cs : List Char)
    (h : skipWs l = c :: cs) : parseVal (f + 1) l = parseValBody f c cs := by
  rw [parseVal.eq_def]
  simp only [h]
  rfl

lemma notDigitHead_cons (c : Char) (l : List Char) (h : isDigitC c = false) :
    notDigitHead (c :: l) := h

/-- The first character of a rendered value: never whitespace, never a
closing bracket or brace, never a comma. -/
lemma stringifyV_head_facts (v : Json) :
    ∃ c cs, stringifyV v = c :: cs ∧ isWsC c = false ∧ c.toNat ≠ 93 ∧
      c.toNat ≠ 125 ∧ c.toNat ≠ 44 := by
  cases v with
  | null => exact ⟨'n', _, rfl, by decide, by decide, by decide, by decide⟩
  | bool b =>
      cases b with
      | true => exact ⟨'t', _, rfl, by decide, by decide, by decide, by decide⟩
      | false => exact ⟨'f', _, rfl, by decide, by decide, by decide, by decide⟩
  | num n =>
      by_cases hneg : n < 0
      · refine ⟨'-', natChars (-n).toNat, ?_, by decide, by decide, by decide,
          by decide⟩
        rw [stringifyV, intChars, if_pos hneg]
      · rcases hl : natChars n.toNat with _ | ⟨c, cs⟩
        · exact absurd hl (natChars_ne_nil _)
        · have hdig := natChars_all_digits n.toNat c
            (hl ▸ List.mem_cons_self c cs)
          have hb : 48 ≤ c.toNat ∧ c.toNat ≤ 57 := by
            simpa [isDigitC] using hdig
          refine ⟨c, cs, ?_, ?_, by omega, by omega, by omega⟩
          · rw [stringifyV, intChars, if_neg hneg, hl]
          · simp [isWsC]; omega
  | str s => exact ⟨quoteC, _, rfl, by decide, by decide, by decide, by decide⟩
  | arr vs => exact ⟨'[', _, rfl, by decide, by decide, by decide, by decide⟩
  | obj fs =>
      exact ⟨lbraceC, _, rfl, by decide, by decide, by decide, by decide⟩

mutual
/-- Parser fuel sufficient for a rendered value. -/
def jfuelV : Json → Nat
  | .null => 1
  | .bool _ => 1
  | .num _ => 1
  | .str _ => 1
  | .arr vs => jfuelL vs + 1
  | .obj fs => jfuelF fs + 1

/-- Parser fuel sufficient for a rendered array body. -/
def jfuelL : JsonList → Nat
  | .lnil => 0
  | .lcons v vs => jfuelV v + jfuelL vs + 1

/-- Parser fuel sufficient for a rendered field list. -/
def jfuelF : JsonFields → Nat
  | .fnil => 0
  | .fcons _ v fs => jfuelV v + jfuelF fs + 1
end

/-- Parsing a rendered integer. -/
lemma parseVal_intChars (f : Nat) (n : Int) (rest : List Char)
    (hrest : notDigitHead rest) :
    parseVal (f + 1) (intChars n ++ rest) = some (.num n, rest) := by
  by_cases hneg : n < 0
  · rcases hl : natChars (-n).toNat with _ | ⟨d, ds⟩
    · exact absurd hl (natChars_ne_nil _)
    · have hdig := natChars_all_digits (-n).toNat d
        (hl ▸ List.mem_cons_self d ds)
      rw [intChars, if_pos hneg, hl]
      simp only [List.cons_append]
      rw [parseVal_succ_skip f _ '-' (d :: (ds ++ rest))
        (skipWs_cons_of_not_ws _ _ (by decide))]
      simp only [parseValBody, show ('-').toNat = 45 from rfl]
      norm_num
      rw [parseDigits_natChars (-n).toNat d ds rest hl hrest]
      refine ⟨hdig, by omega, rfl⟩
  · rcases hl : natChars n.toNat with _ | ⟨c, cs⟩
    · exact absurd hl (natChars_ne_nil _)
    · have hdig := natChars_all_digits n.toNat c (hl ▸ List.mem_cons_self c cs)
      have hb : 48 ≤ c.toNat ∧ c.toNat ≤ 57 := by simpa [isDigitC] using hdig
      rw [intChars, if_neg hneg, hl]
      simp only [List.cons_append]
      rw [parseVal_succ_skip f _ c (cs ++ rest)
        (skipWs_cons_of_not_ws _ _ (by simp [isWsC]; omega))]
      rw [parseValBody.eq_def]
      rw [if_neg (by omega : ¬ c.toNat = 123), if_neg (by omega : ¬ c.toNat = 91),
        if_neg (by omega : ¬ c.toNat = 34), if_neg (by omega : ¬ c.toNat = 110),
        if_neg (by omega : ¬ c.toNat = 116), if_neg (by omega : ¬ c.toNat = 102),
        if_neg (by omega : ¬ c.toNat = 45), if_pos hdig]
      rw [parseDigits_natChars n.toNat c cs rest hl hrest]
      have hn : Int.ofNat n.toNat = n := by
        rw [show Int.ofNat n.toNat = ((n.toNat : ℤ)) from rfl]
        omega
      rw [hn]

lemma jfuelV_pos (v : Json) : 1 ≤ jfuelV v := by
  cases v <;> simp [jfuelV]

lemma stringifyL_cons_shape (w : Json) (ws : JsonList) :
    ∃ t, stringifyL (.lcons w ws) = stringifyV w ++ t := by
  cases ws with
  | lnil => exact ⟨[], by simp [stringifyL]⟩
  | lcons x xs => exact ⟨',' :: stringifyL (.lcons x xs), rfl⟩

lemma stringifyF_cons_shape (k : String) (w : Json) (fs : JsonFields) :
    ∃ t, stringifyF (.fcons k w fs) =
      quoteC :: (escapeStr k.toList ++ quoteC :: ':' :: stringifyV w ++ t) := by
  cases fs with
  | fnil => exact ⟨[], by simp [stringifyF]⟩
  | fcons k2 w2 fs2 =>
      refine ⟨',' :: stringifyF (.fcons k2 w2 fs2), ?_⟩
      simp [stringifyF]

mutual
/-- The parser inverts `stringifyV` whenever the trailing input cannot
extend a number literal. -/
lemma parseVal_stringify (v : Json) : ∀ f rest, jfuelV v ≤ f →
    notDigitHead rest →
    parseVal f (stringifyV v ++ rest) = some (v, rest) := by
  intro f rest hf hrest
  obtain ⟨f1, rfl⟩ : ∃ f1, f = f1 + 1 :=
    ⟨f - 1, by have := jfuelV_pos v; omega⟩
  cases v with
  | null =>
      rw [parseVal.eq_def]
      simp [stringifyV, skipWs, isWsC]
  | bool b =>
      cases b <;> (rw [parseVal.eq_def]; simp [stringifyV, skipWs, isWsC])
  | num n => exact parseVal_intChars f1 n rest hrest
  | str s =>
      rw [parseVal.eq_def]
      simp [stringifyV, skipWs, isWsC, quoteC_toNat, readStr_escape, mk_toList]
  | arr vs =>
      cases vs with
      | lnil =>
          rw [parseVal.eq_def]
          simp [stringifyV, stringifyL, skipWs, isWsC]
      | lcons w ws =>
          have hfl : jfuelV w + jfuelL ws + 1 ≤ f1 := by
            simp only [jfuelV, jfuelL] at hf; omega
          obtain ⟨c, cs, hv, hws, h93, _, _⟩ := stringifyV_head_facts w
          obtain ⟨t, ht⟩ := stringifyL_cons_shape w ws
          have hX : stringifyL (.lcons w ws) ++ ']' :: rest =
              c :: (cs ++ t ++ ']' :: rest) := by
            rw [ht, hv]; simp
          rw [show stringifyV (.arr (.lcons w ws)) ++ rest =
            '[' :: (stringifyL (.lcons w ws) ++ ']' :: rest) by
              simp [stringifyV]]
          rw [parseVal_succ_skip f1 _ '[' _
            (skipWs_cons_of_not_ws _ _ (by decide))]
          rw [parseValBody.eq_def]
          simp only [show ('[').toNat = 91 from rfl]
          norm_num
          rw [show skipWs (stringifyL (.lcons w ws) ++ ']' :: rest) =
            stringifyL (.lcons w ws) ++ ']' :: rest from by
              rw [hX]; exact skipWs_cons_of_not_ws c _ hws]
          rw [hX]
          simp only [h93, if_false]
          rw [← hX, parseElems_stringify w ws f1 rest hfl hrest]
  | obj fs =>
      cases fs with
      | fnil =>
          rw [parseVal.eq_def]
          simp [stringifyV, stringifyF, skipWs, isWsC, lbraceC_toNat,
            rbraceC_toNat]
      | fcons k w fs2 =>
          have hfl : jfuelV w + jfuelF fs2 + 1 ≤ f1 := by
            simp only [jfuelV, jfuelF] at hf; omega
          obtain ⟨t, ht⟩ := stringifyF_cons_shape k w fs2
          have hX : stringifyF (.fcons k w fs2) ++ rbraceC :: rest =
              quoteC :: (escapeStr k.toList ++ quoteC :: ':' ::
                stringifyV w ++ t ++ rbraceC :: rest) := by
            rw [ht]; simp
          rw [show stringifyV (.obj (.fcons k w fs2)) ++ rest =
            lbraceC :: (stringifyF (.fcons k w fs2) ++ rbraceC :: rest) by
              simp [stringifyV]]
          rw [parseVal_succ_skip f1 _ lbraceC _
            (skipWs_cons_of_not_ws _ _ (by decide))]
          rw [parseValBody.eq_def]
          simp only [lbraceC_toNat]
          norm_num
          rw [show skipWs (stringifyF (.fcons k w fs2) ++ rbraceC :: rest) =
            stringifyF (.fcons k w fs2) ++ rbraceC :: rest from by
              rw [hX]; exact skipWs_cons_of_not_ws quoteC _ (by decide)]
          rw [hX]
          simp only [quoteC_toNat]
          norm_num
          have hX2 : quoteC :: (escapeStr k.data ++
              quoteC :: ':' :: (stringifyV w ++ (t ++ rbraceC :: rest))) =
              stringifyF (.fcons k w fs2) ++ rbraceC :: rest := by
            rw [ht]; simp
          rw [hX2, parseFields_stringify k w fs2 f1 rest hfl hrest]
termination_by sizeOf v

/-- The parser inverts `stringifyL` on a nonempty array body followed by
the closing bracket. -/
lemma parseElems_stringify (w : Json) (ws : JsonList) : ∀ f rest,
    jfuelV w + jfuelL ws + 1 ≤ f → notDigitHead rest →
    parseElems f (stringifyL (.lcons w ws) ++ ']' :: rest) =
      some (.lcons w ws, rest) := by
  intro f rest hf hrest
  obtain ⟨f1, rfl⟩ : ∃ f1, f = f1 + 1 := ⟨f - 1, by omega⟩
  rw [parseElems.eq_def]
  cases ws with
  | lnil =>
      have hv := parseVal_stringify w f1 (']' :: rest)
        (by simp only [jfuelL] at hf; omega)
        (notDigitHead_cons ']' rest (by decide))
      simp only [stringifyL, hv]
      rw [skipWs_cons_of_not_ws ']' rest (by decide)]
      simp [show (']').toNat = 93 from rfl]
  | lcons x xs =>
      have hfx : jfuelV x + jfuelL xs + 1 ≤ f1 := by
        simp only [jfuelL] at hf; omega
      have hv := parseVal_stringify w f1
        (',' :: (stringifyL (.lcons x xs) ++ ']' :: rest))
        (by simp only [jfuelL] at hf; omega)
        (notDigitHead_cons ',' _ (by decide))
      have hrec := parseElems_stringify x xs f1 rest hfx hrest
      simp only [stringifyL, List.append_assoc, List.cons_append, hv]
      rw [skipWs_cons_of_not_ws ',' _ (by decide)]
      simp [show (',').toNat = 44 from rfl, hrec]
termination_by sizeOf w + sizeOf ws

/-- The parser inverts `stringifyF` on a nonempty field list followed by
the closing brace. -/
lemma parseFields_stringify (k : String) (w : Json) (fs : JsonFields) :
    ∀ f rest, jfuelV w + jfuelF fs + 1 ≤ f → notDigitHead rest →
    parseFields f (stringifyF (.fcons k w fs) ++ rbraceC :: rest) =
      some (.fcons k w fs, rest) := by
  intro f rest hf hrest
  obtain ⟨f1, rfl⟩ : ∃ f1, f = f1 + 1 := ⟨f - 1, by omega⟩
  rw [parseFields.eq_def]
  cases fs with
  | fnil =>
      have hv := parseVal_stringify w f1 (rbraceC :: rest)
        (by simp only [jfuelF] at hf; omega)
        (notDigitHead_cons rbraceC rest (by decide))
      simp only [stringifyF, List.cons_append, List.append_assoc]
      rw [skipWs_cons_of_not_ws quoteC _ (by decide)]
      simp only [quoteC_toNat]
      norm_num
      rw [readStr_escape k.data (':' :: (stringifyV w ++ rbraceC :: rest))]
      simp [skipWs, isWsC, show (':').toNat = 58 from rfl, hv,
        rbraceC_toNat, mk_data]
  | fcons k2 w2 fs2 =>
      have hfx : jfuelV w2 + jfuelF fs2 + 1 ≤ f1 := by
        simp only [jfuelF] at hf; omega
      have hv := parseVal_stringify w f1
        (',' :: (stringifyF (.fcons k2 w2 fs2) ++ rbraceC :: rest))
        (by simp only [jfuelF] at hf; omega)
        (notDigitHead_cons ',' _ (by decide))
      have hrec := parseFields_stringify k2 w2 fs2 f1 rest hfx hrest
      simp only [stringifyF, List.cons_append, List.append_assoc]
      rw [skipWs_cons_of_not_ws quoteC _ (by decide)]
      simp only [quoteC_toNat]
      norm_num
      rw [readStr_escape k.data
        (':' :: (stringifyV w ++
          ',' :: (stringifyF (.fcons k2 w2 fs2) ++ rbraceC :: rest)))]
      simp [skipWs, isWsC, show (':').toNat = 58 from rfl, hv,
        show (',').toNat = 44 from rfl, hrec, mk_data]
termination_by sizeOf w + sizeOf fs
end

lemma skipWs_cons_ws (c : Char) (l : List Char) (h : isWsC c = true) :
    skipWs (c :: l) = skipWs l := by
  simp [skipWs, h]

lemma skipWs_idem (l : List Char) : skipWs (skipWs l) = skipWs l := by
  induction l with
  | nil => rfl
  | cons c cs ih =>
      by_cases h : isWsC c = true
      · rw [skipWs_cons_ws c cs h, ih]
      · rw [skipWs_cons_of_not_ws c cs (by simpa using h),
          skipWs_cons_of_not_ws c cs (by simpa using h)]

lemma parseVal_succ_dispatch (f : Nat) (l : List Char) :
    parseVal (f + 1) l =
      (match skipWs l with
       | [] => none
       | c :: cs => parseValBody f c cs) := by
  cases h : skipWs l with
  | nil =>
      rw [parseVal.eq_def]
      simp only [h]
  | cons c cs =>
      rw [parseVal_succ_skip f l c cs h]

/-- Leading whitespace is transparent to the parser. -/
lemma parseVal_ws_cons (f : Nat) (c : Char) (l : List Char)
    (h : isWsC c = true) : parseVal (f + 1) (c :: l) = parseVal (f + 1) l := by
  rw [parseVal_succ_dispatch, parseVal_succ_dispatch, skipWs_cons_ws c l h]

mutual
/-- The fuel measure is covered by the rendered length. -/
lemma jfuelV_le (v : Json) : jfuelV v ≤ (stringifyV v).length := by
  cases v with
  | null => simp [jfuelV, stringifyV]
  | bool b => cases b <;> simp [jfuelV, stringifyV]
  | num n =>
      have h1 : 1 ≤ (intChars n).length := by
        rw [intChars]
        by_cases hneg : n < 0
        · simp [hneg]
        · simp only [hneg, if_false]
          exact List.length_pos.mpr (natChars_ne_nil _)
      simpa [jfuelV, stringifyV] using h1
  | str s => simp [jfuelV, stringifyV]
  | arr vs =>
      have := jfuelL_le vs
      simp only [jfuelV, stringifyV, List.length_cons, List.length_append,
        List.length_singleton]
      omega
  | obj fs =>
      have := jfuelF_le fs
      simp only [jfuelV, stringifyV, List.length_cons, List.length_append,
        List.length_singleton]
      omega
termination_by sizeOf v

/-- The fuel measure of an array body is covered by its rendered length
plus one. -/
lemma jfuelL_le (xs : JsonList) : jfuelL xs ≤ (stringifyL xs).length + 1 := by
  cases xs with
  | lnil => simp [jfuelL]
  | lcons v vs =>
      cases vs with
      | lnil =>
          have := jfuelV_le v
          simp only [jfuelL, stringifyL]
          omega
      | lcons x xs2 =>
          have h1 := jfuelV_le v
          have h2 := jfuelL_le (JsonList.lcons x xs2)
          simp only [jfuelL, stringifyL, List.length_append, List.length_cons]
          simp only [jfuelL] at h2
          omega
termination_by sizeOf xs

/-- The fuel measure of a field list is covered by its rendered length
plus one. -/
lemma jfuelF_le (fs : JsonFields) : jfuelF fs ≤ (stringifyF fs).length + 1 := by
  cases fs with
  | fnil => simp [jfuelF]
  | fcons k v fs2 =>
      cases fs2 with
      | fnil =>
          have := jfuelV_le v
          simp only [jfuelF, stringifyF, List.length_cons, List.length_append]
          omega
      | fcons k2 w2 fs3 =>
          have h1 := jfuelV_le v
          have h2 := jfuelF_le (JsonFields.fcons k2 w2 fs3)
          simp only [jfuelF, stringifyF, List.length_cons, List.length_append]
          simp only [jfuelF] at h2
          omega
termination_by sizeOf fs
end

/-- Tags the codec interpolates raw into message texts: every character
is quote-, backslash- and control-free. -/
def tagSafe (tag : String) : Prop := ∀ c ∈ tag.data, rawSafeChar c

lemma toList_mk (l : List Char) : (String.mk l).toList = l := rfl

/-- Decoding the audio-manager 2-tuple encoding yields exactly the
single-key object carrying the tag and the params value. -/
lemma jsonParse_msgStringAM_pair (tag : String) (p : Json)
    (htag : tagSafe tag) :
    jsonParse (msgStringAM (tag, some p)) =
      some (.obj (.fcons tag p .fnil)) := by
  rw [jsonParse]
  rw [show (msgStringAM (tag, some p)).toList =
    lbraceC :: ' ' :: quoteC :: (tag.data ++
      quoteC :: ':' :: ' ' :: (stringifyV p ++ [rbraceC])) from by
      simp [msgStringAM, toList_mk]]
  have hlen : (lbraceC :: ' ' :: quoteC :: (tag.data ++
      quoteC :: ':' :: ' ' :: (stringifyV p ++ [rbraceC]))).length =
      tag.data.length + (stringifyV p).length + 7 := by
    simp; omega
  rw [hlen]
  have hfuel := jfuelV_le p
  obtain ⟨m, hm⟩ : ∃ m, tag.data.length + (stringifyV p).length + 7 + 1 =
      m + 1 + 1 := ⟨tag.data.length + (stringifyV p).length + 6, by omega⟩
  rw [hm]
  rw [parseVal_succ_skip (m + 1) _ lbraceC _
    (skipWs_cons_of_not_ws _ _ (by decide))]
  rw [parseValBody.eq_def]
  simp only [lbraceC_toNat]
  norm_num
  rw [show skipWs (' ' :: quoteC :: (tag.data ++
      quoteC :: ':' :: ' ' :: (stringifyV p ++ [rbraceC]))) =
    quoteC :: (tag.data ++
      quoteC :: ':' :: ' ' :: (stringifyV p ++ [rbraceC])) from by
      rw [skipWs_cons_ws _ _ (by decide)]
      exact skipWs_cons_of_not_ws _ _ (by decide)]
  simp only [quoteC_toNat]
  norm_num
  rw [parseFields.eq_def]
  simp only [skipWs_cons_of_not_ws quoteC _ (by decide), quoteC_toNat]
  norm_num
  rw [show tag.data ++ quoteC :: ':' :: ' ' :: (stringifyV p ++ [rbraceC]) =
    tag.data ++ quoteC :: (':' :: ' ' :: (stringifyV p ++ [rbraceC])) from rfl]
  rw [readStr_rawList tag.data htag
    (':' :: ' ' :: (stringifyV p ++ [rbraceC]))]
  obtain ⟨m2, hm2⟩ : ∃ m2, m = m2 + 1 := ⟨m - 1, by omega⟩
  have hval : parseVal m (' ' :: (stringifyV p ++ [rbraceC])) =
      some (p, [rbraceC]) := by
    rw [hm2, parseVal_ws_cons m2 ' ' _ (by decide)]
    exact parseVal_stringify p (m2 + 1) [rbraceC] (by omega)
      (notDigitHead_cons rbraceC [] (by decide))
  simp [skipWs, isWsC, show (':').toNat = 58 from rfl, hval, rbraceC_toNat,
    mk_data]

/-- Decoding the audio-manager 1-tuple encoding (the bare quoted tag)
yields the JSON string equal to the tag. -/
lemma jsonParse_quoteWrap (tag : String) (htag : tagSafe tag) :
    jsonParse (quoteWrap tag) = some (.str tag) := by
  rw [jsonParse]
  rw [show (quoteWrap tag).toList = quoteC :: (tag.data ++ [quoteC]) from by
    simp [quoteWrap, toList_mk]]
  obtain ⟨m, hm⟩ : ∃ m, (quoteC :: (tag.data ++ [quoteC])).length = m + 1 :=
    ⟨tag.data.length + 1, by simp⟩
  rw [hm]
  rw [parseVal_succ_skip (m + 1) _ quoteC _
    (skipWs_cons_of_not_ws _ _ (by decide))]
  rw [parseValBody.eq_def]
  simp only [quoteC_toNat]
  norm_num
  rw [show tag.data ++ [quoteC] = tag.data ++ quoteC :: [] from rfl]
  rw [readStr_rawList tag.data htag []]
  simp [skipWs, mk_data]

/-- Any successfully decoded message whose text starts with a double
quote is a JSON string, never an object. -/
lemma jsonParse_quoteWrap_shape (k : String) (v : Json)
    (h : jsonParse (quoteWrap k) = some v) : ∃ s, v = .str s := by
  rw [jsonParse] at h
  rw [show (quoteWrap k).toList = quoteC :: (k.data ++ [quoteC]) from by
    simp [quoteWrap, toList_mk]] at h
  rw [show (quoteC :: (k.data ++ [quoteC])).length = k.data.length + 1 + 1
    from by simp] at h
  rw [parseVal_succ_skip (k.data.length + 1 + 1) _ quoteC _
    (skipWs_cons_of_not_ws _ _ (by decide))] at h
  rw [parseValBody.eq_def] at h
  simp only [quoteC_toNat] at h
  norm_num at h
  rcases hr : readStr (k.data ++ [quoteC]) with _ | ⟨s2, r⟩
  · rw [hr] at h
    simp at h
  · rw [hr] at h
    simp only [] at h
    rcases hsk : skipWs r with _ | _
    · rw [hsk] at h
      simp at h
      exact ⟨⟨s2⟩, h.symm⟩
    · rw [hsk] at h
      simp at h
lemma jsGet_obj (fs : JsonFields) (k : String) :
    jsGet (.obj fs) k = fieldGet fs k := rfl

/-- The handler invocations an object message produces: one per handler
whose key is bound in the object, carrying the bound value. -/
def invocations {α : Type} (fs : JsonFields) (handlers : List (String × α)) :
    List (α × Option Json) :=
  handlers.filterMap fun kh => (fieldGet fs kh.1).map fun v => (kh.2, some v)

lemma handleResponseApp_filterMap {α : Type} (fs : JsonFields)
    (handlers : List (String × α)) :
    (handlers.filterMap fun kh =>
      if (jsGet (Json.obj fs) kh.1).isSome then some (kh.2, jsGet (Json.obj fs) kh.1)
      else none) = invocations fs handlers := by
  induction handlers with
  | nil => rfl
  | cons kh t ih =>
      simp only [invocations, List.filterMap_cons, jsGet_obj] at ih ⊢
      cases hfg : fieldGet fs kh.1 with
      | none => simp [hfg, ih]
      | some v => simp [hfg, ih]

lemma response_ne_quoteWrap (response : String) (fs : JsonFields)
    (h : jsonParse response = some (.obj fs)) (k : String) :
    response ≠ quoteWrap k := by
  intro heq
  rw [heq] at h
  obtain ⟨s, hs⟩ := jsonParse_quoteWrap_shape k _ h
  exact Json.noConfusion hs

lemma handleResponseAM_filterMap {α : Type} (response : String)
    (fs : JsonFields) (handlers : List (String × α))
    (h : jsonParse response = some (.obj fs)) :
    (handlers.filterMap fun kh =>
      if (jsGet (Json.obj fs) kh.1).isSome ∨ response = quoteWrap kh.1 then
        some (kh.2, jsGet (Json.obj fs) kh.1)
      else none) = invocations fs handlers := by
  induction handlers with
  | nil => rfl
  | cons kh t ih =>
      simp only [invocations, List.filterMap_cons, jsGet_obj] at ih ⊢
      have hne := response_ne_quoteWrap response fs h kh.1
      cases hfg : fieldGet fs kh.1 with
      | none => simp [hfg, hne, ih]
      | some v => simp [hfg, hne, ih]

lemma invocations_length {α : Type} (fs : JsonFields)
    (handlers : List (String × α)) :
    (invocations fs handlers).length =
      (handlers.filter fun kh => (fieldGet fs kh.1).isSome).length := by
  induction handlers with
  | nil => rfl
  | cons kh t ih =>
      simp only [invocations, List.filterMap_cons, List.filter_cons] at ih ⊢
      cases hfg : fieldGet fs kh.1 with
      | none => simp [hfg, ih]
      | some v => simp [hfg, ih]

/-- C5: for every inbound message that decodes to an object and every
registered handler list, both `handleResponse` variants invoke exactly
the handlers whose key is bound (to a defined value) in the object, in
registration order and with the bound value — so a message carrying
several capability keys invokes all matching handlers — and they skip
every handler whose key is absent; the dispatch returns normally
(`Except.ok`), so unknown keys in the message never make it throw. -/
theorem handleResponse_dispatch {α : Type} (response : String)
    (fs : JsonFields) (handlers : List (String × α))
    (h : jsonParse response = some (.obj fs)) :
    handleResponseApp response handlers = .ok (invocations fs handlers) ∧
    handleResponseAM response handlers = .ok (invocations fs handlers) ∧
    (∀ k hd v, (k, hd) ∈ handlers → fieldGet fs k = some v →
      (hd, some v) ∈ invocations fs handlers) ∧
    (invocations fs handlers).length =
      (handlers.filter fun kh => (fieldGet fs kh.1).isSome).length := by
  refine ⟨?_, ?_, ?_, invocations_length fs handlers⟩
  · simp only [handleResponseApp, h, handleResponseApp_filterMap]
  · simp only [handleResponseAM, h,
      handleResponseAM_filterMap response fs handlers h]
  · intro k hd v hmem hfg
    exact List.mem_filterMap.mpr ⟨(k, hd), hmem, by simp [hfg]⟩

def healthKey : String := "HEALTH"

def ignoredKey : String := "IGNORED"

def absentKey : String := "ABSENT"

def goodHealth : String := "good"

def sampleBatchResponse : String :=
  "\x7b\"QUEUE\":[1],\"HEALTH\":\"good\",\"IGNORED\":0\x7d"

def sampleBatchFields : JsonFields :=
  .fcons queueKey (.arr (.lcons (.num 1) .lnil))
    (.fcons healthKey (.str goodHealth) (.fcons ignoredKey (.num 0) .fnil))

/-- Witness for `handleResponse_dispatch`: a message batching a queue
snapshot and a health update invokes both registered handlers (and only
those), with the unknown key IGNORED harmless. -/
theorem handleResponse_dispatch_witness :
    jsonParse sampleBatchResponse = some (.obj sampleBatchFields) ∧
      (handleResponseApp sampleBatchResponse
          [(queueKey, 1), (healthKey, 2), (absentKey, 3)] =
        .ok (invocations sampleBatchFields
          [(queueKey, 1), (healthKey, 2), (absentKey, 3)]) ∧
      handleResponseAM sampleBatchResponse
          [(queueKey, 1), (healthKey, 2), (absentKey, 3)] =
        .ok (invocations sampleBatchFields
          [(queueKey, 1), (healthKey, 2), (absentKey, 3)]) ∧
      (∀ k hd v, (k, hd) ∈ [(queueKey, 1), (healthKey, 2), (absentKey, 3)] →
        fieldGet sampleBatchFields k = some v →
        (hd, some v) ∈ invocations sampleBatchFields
          [(queueKey, 1), (healthKey, 2), (absentKey, 3)]) ∧
      (invocations sampleBatchFields
          [(queueKey, 1), (healthKey, 2), (absentKey, 3)]).length =
        (([(queueKey, 1), (healthKey, 2), (absentKey, 3)]).filter
          fun kh => (fieldGet sampleBatchFields kh.1).isSome).length) :=
  ⟨rfl, handleResponse_dispatch sampleBatchResponse sampleBatchFields
    [(queueKey, 1), (healthKey, 2), (absentKey, 3)] rfl⟩

def malformedInput : String := "boom"

/-- C7 counterexample: the session page's `websocket.onmessage` path
(unnamed source part 006) passes the raw message straight to
`handleResponse`, whose `JSON.parse` throws on malformed input with no
try/catch anywhere on that path — the decode failure escapes the message
handler instead of being caught and logged, so the claim does not hold
on every receive path. -/
theorem part006_decode_failure_escapes :
    jsonParse malformedInput = none ∧
      part006OnMessage malformedInput [(queueKey, 1)] =
        Except.error jsonSyntaxError :=
  ⟨rfl, rfl⟩

/-- C7 amended: on the two node-queue page receive paths
(`socket.addEventListener` wrapped in try/catch) a malformed message is
caught and logged and leaves the page state untouched — nothing
propagates; on the `websocket.onmessage` path of the session page
(unnamed part 006) the `JSON.parse` failure escapes the handler as an
exception. -/
theorem decode_failure_handling {α : Type} (raw : String) (st : PageState)
    (handlers : List (String × α)) (h : jsonParse raw = none) :
    pageOnMessage raw st = (st, true) ∧
      part006OnMessage raw handlers = Except.error jsonSyntaxError := by
  constructor
  · rw [pageOnMessage, h]
  · rw [part006OnMessage, handleResponseAM, h]

/-- Witness for `decode_failure_handling` at the malformed message
`boom` against an empty page state. -/
theorem decode_failure_handling_witness :
    jsonParse malformedInput = none ∧
      (pageOnMessage malformedInput ⟨.arr .lnil, none⟩ =
          (⟨.arr .lnil, none⟩, true) ∧
        part006OnMessage malformedInput [(queueKey, 1)] =
          Except.error jsonSyntaxError) :=
  ⟨rfl, decode_failure_handling malformedInput ⟨.arr .lnil, none⟩
    [(queueKey, 1)] rfl⟩

def playNextTag : String := "PLAY_NEXT"

/-- C6 counterexample: the `src/app` `msgString` defines only the
2-tuple template; a 1-tuple such as `PLAY_NEXT` passed to it (as the
app's own zero-payload commands are built) renders the payload slot as
the text `undefined`, which is neither the JSON string literal of the
tag nor valid JSON at all — so the claimed 1-tuple encoding does not
hold in every codec variant. -/
theorem msgStringApp_one_tuple_counterexample :
    msgStringApp (playNextTag, none) ≠ quoteWrap playNextTag ∧
      jsonParse (msgStringApp (playNextTag, none)) = none ∧
      msgStringAM (playNextTag, none) = quoteWrap playNextTag :=
  ⟨by decide, rfl, rfl⟩

lemma msgStringApp_pair_eq (tag : String) (p : Json) :
    msgStringApp (tag, some p) = msgStringAM (tag, some p) := rfl

/-- C6 amended: in the audio-manager codec variant a 1-tuple encodes to
the JSON string literal equal to the tag and a 2-tuple to the single-key
JSON object mapping the tag to the serialized params; the app variant
defines only the 2-tuple form, which encodes to the same single-key
object (decoded forms stated through `jsonParse`, for every tag free of
quotes, backslashes and control characters). -/
theorem msgString_encoding (tag : String) (p : Json) (htag : tagSafe tag) :
    msgStringAM (tag, none) = quoteWrap tag ∧
      jsonParse (msgStringAM (tag, none)) = some (.str tag) ∧
      jsonParse (msgStringAM (tag, some p)) =
        some (.obj (.fcons tag p .fnil)) ∧
      jsonParse (msgStringApp (tag, some p)) =
        some (.obj (.fcons tag p .fnil)) := by
  refine ⟨rfl, jsonParse_quoteWrap tag htag,
    jsonParse_msgStringAM_pair tag p htag, ?_⟩
  rw [msgStringApp_pair_eq]
  exact jsonParse_msgStringAM_pair tag p htag

def playSelectedTag : String := "PLAY_SELECTED"

def indexKey : String := "index"

def indexParams : Json := .obj (.fcons indexKey (.num 3) .fnil)

/-- Witness for `msgString_encoding` at the `PLAY_SELECTED` command with
params `\x7b index: 3 \x7d`. -/
theorem msgString_encoding_witness :
    tagSafe playSelectedTag ∧
      (msgStringAM (playSelectedTag, none) = quoteWrap playSelectedTag ∧
        jsonParse (msgStringAM (playSelectedTag, none)) =
          some (.str playSelectedTag) ∧
        jsonParse (msgStringAM (playSelectedTag, some indexParams)) =
          some (.obj (.fcons playSelectedTag indexParams .fnil)) ∧
        jsonParse (msgStringApp (playSelectedTag, some indexParams)) =
          some (.obj (.fcons playSelectedTag indexParams .fnil))) :=
  ⟨by unfold tagSafe rawSafeChar; decide,
    msgString_encoding playSelectedTag indexParams
      (by unfold tagSafe rawSafeChar; decide)⟩

/-- C10: round trip of the codec pair actually used by the session page
(the audio-manager `msgString` feeding `handleResponse`).  For every tag
without JSON-special characters and every JSON-serializable params value
(numbers modeled as integers), a handler registered under the tag is
invoked exactly once: with a value structurally equal to the params for
the 2-tuple encoding, and with `undefined` for the bare-tag encoding
(which dispatches through the `response === quoted tag` clause). -/
theorem codec_roundtrip {α : Type} (tag : String) (p : Json) (hd : α)
    (htag : tagSafe tag) :
    handleResponseAM (msgStringAM (tag, some p)) [(tag, hd)] =
        .ok [(hd, some p)] ∧
      handleResponseAM (msgStringAM (tag, none)) [(tag, hd)] =
        .ok [(hd, none)] := by
  constructor
  · rw [handleResponseAM, jsonParse_msgStringAM_pair tag p htag]
    simp [jsGet, fieldGet]
  · rw [handleResponseAM,
      show msgStringAM (tag, none) = quoteWrap tag from rfl,
      jsonParse_quoteWrap tag htag]
    simp [jsGet]

/-- Witness for `codec_roundtrip` at the `PLAY_SELECTED` command with
params `\x7b index: 3 \x7d` and at the bare `PLAY_NEXT` command. -/
theorem codec_roundtrip_witness :
    tagSafe playSelectedTag ∧
      (handleResponseAM (msgStringAM (playSelectedTag, some indexParams))
          [(playSelectedTag, 1)] = .ok [(1, some indexParams)] ∧
        handleResponseAM (msgStringAM (playSelectedTag, none))
          [(playSelectedTag, 1)] = .ok [(1, none)]) :=
  ⟨by unfold tagSafe rawSafeChar; decide,
    codec_roundtrip playSelectedTag indexParams 1
      (by unfold tagSafe rawSafeChar; decide)⟩

end Audiotorium
